import Mathlib

/-!
Shallow embedding of the state-space construction core of the
`estimating-state-space-diameters` repository, and verification of the
frozen claims about it.

Source files embedded:
  * `src/parser/models.py`  — `SASVariable`, `SASOperator`, `SASProblem`
  * `src/parser/core.py`    — `SASParser` (line-oriented SAS parser)
  * `src/graph/builder.py`  — `StateSpaceBuilder` (reachability graph,
    Cartesian graph, weak-component extraction, edge merge policy)

Embedding conventions:
  * Python `int` is `Int`; a state (a Python tuple of ints) is `List Int`.
  * Python list indexing `xs[i]` (which wraps negative indices and raises
    `IndexError` when out of range) is embedded by `pyGet`/`getTok`
    returning `Option`/`Except`; the out-of-range write in `pySet` is a
    no-op where Python would raise.  All claims touched by that difference
    carry in-bounds hypotheses.
  * Python exceptions surfacing out of a call are `Except String`; the
    `StopIteration` that `SASParser.parse` catches is the `.stop`
    constructor of `SubResult`.
  * The unbounded `while True` / BFS loops are embedded with an explicit
    fuel parameter; each loop iteration consumes at least one input line
    (resp. one queue entry), and the theorems below are proved for every
    fuel value, hence for the fuel that completes the loop.
  * A `networkx.DiGraph` is a `Graph`: a node list plus a list of labelled
    weighted edges, with `add_edge` inserting missing endpoints, exactly as
    networkx does.
-/

namespace SAS

/-- Python list index semantics: a negative index counts from the end. -/
def pyIndex (len : Nat) (i : Int) : Int :=
  if i < 0 then i + len else i

/-- Embeds a Python read `state[i]` on a list of ints: `none` where Python
raises `IndexError`. -/
def pyGet (s : List Int) (i : Int) : Option Int :=
  if pyIndex s.length i < 0 then none
  else s.get? (pyIndex s.length i).toNat

/-- Embeds a Python write `state[i] = v` on a list of ints; identity where
Python would raise `IndexError` (theorems needing the write to land carry
in-bounds hypotheses). -/
def pySet (s : List Int) (i : Int) (v : Int) : List Int :=
  if pyIndex s.length i < 0 then s
  else s.set (pyIndex s.length i).toNat v

/-- Embeds `SASVariable` from `src/parser/models.py`. -/
structure SASVariable where
  name : String
  var_id : Nat
  range_size : Int
  atom_names : List String
deriving DecidableEq

/-- Embeds `SASOperator` from `src/parser/models.py`.  An effect is the
triple `(var_id, new_value, conditions)` exactly as stored by the parser.
(The `mutex_groups` field of `SASProblem`, never populated or read by the
core, is omitted.) -/
structure SASOperator where
  name : String
  cost : Int
  preconditions : List (Int × Int)
  effects : List (Int × Int × List (Int × Int))
deriving DecidableEq

/-- Embeds `SASOperator.is_applicable`: every precondition pair
`(var_id, val)` must hold in the state. -/
def SASOperator.is_applicable (op : SASOperator) (state : List Int) : Bool :=
  op.preconditions.all (fun pc => pyGet state pc.1 == some pc.2)

/-- One step of the effect loop in `SASOperator.apply`: the guard
conditions are checked against `state` (the pre-application snapshot),
while the write lands in `new_state` (the accumulator). -/
def applyEffect (state : List Int) (new_state : List Int)
    (eff : Int × Int × List (Int × Int)) : List Int :=
  if eff.2.2.all (fun c => pyGet state c.1 == some c.2) then
    pySet new_state eff.1 eff.2.1
  else
    new_state

/-- Embeds `SASOperator.apply`: fold the effects over a mutable copy of
the state, guards always reading the original state. -/
def SASOperator.apply (op : SASOperator) (state : List Int) : List Int :=
  op.effects.foldl (applyEffect state) state

/-- Embeds `SASProblem` from `src/parser/models.py`. -/
structure SASProblem where
  version : Int
  metric : Bool
  «variables» : List SASVariable
  initial_state : List Int
  goal : List (Int × Int)
  operators : List SASOperator
deriving DecidableEq

/-! ## Parser (`src/parser/core.py`)

The Python string primitives (`str.strip`, `str.split`, `str.splitlines`,
`int(...)`) are embedded by structurally recursive functions over the
character list of the string, so that every parser run reduces inside the
kernel.  They cover the ASCII inputs of the SAS format (Python's `int`
additionally accepts digit-group underscores and non-ASCII digits, which
never appear here). -/

/-- Embeds Python `str.strip()`: drop whitespace from both ends. -/
def pyStrip (s : String) : String :=
  String.mk (((s.data.dropWhile Char.isWhitespace).reverse.dropWhile
    Char.isWhitespace).reverse)

/-- Digit run for the embedding of Python `int(...)`. -/
def digitsToNat : List Char → Option Nat
  | [] => none
  | cs =>
    cs.foldl
      (fun acc c =>
        match acc with
        | none => none
        | some n => if c.isDigit then some (n * 10 + (c.toNat - 48)) else none)
      (some 0)

/-- Signed integer literal: an optional `+`/`-` sign followed by at least
one digit. -/
def strToInt : List Char → Option Int
  | [] => none
  | '-' :: rest => (digitsToNat rest).map (fun n => -(n : Int))
  | '+' :: rest => (digitsToNat rest).map (fun n => (n : Int))
  | cs => (digitsToNat cs).map (fun n => (n : Int))

/-- Embeds Python `int(s)` (which strips surrounding whitespace and
raises `ValueError` on anything else): `none` is the `ValueError` case. -/
def sasInt (s : String) : Option Int :=
  strToInt (pyStrip s).data

/-- Accumulator-based splitter on whitespace runs, discarding empty
pieces. -/
def wsSplitAux : List Char → List Char → List String
  | [], cur => if cur.isEmpty then [] else [String.mk cur.reverse]
  | c :: cs, cur =>
    if c.isWhitespace then
      if cur.isEmpty then wsSplitAux cs []
      else String.mk cur.reverse :: wsSplitAux cs []
    else wsSplitAux cs (c :: cur)

/-- Embeds Python `str.split()` with no argument: split on whitespace
runs, discarding empty pieces. -/
def pySplit (s : String) : List String :=
  wsSplitAux s.data []

/-- The iterator of input lines. -/
abbrev Lines := List String

/-- Outcome of one of the `_parse_*` helpers of `SASParser`:
`ok` returns a value plus the unconsumed lines, `stop` is the
`StopIteration` escaping from an exhausted line iterator (caught by
`parse`), `err` is a `ValueError`/`IndexError` (propagated by `parse`). -/
inductive SubResult (α : Type) where
  | ok : α → Lines → SubResult α
  | stop : SubResult α
  | err : String → SubResult α
deriving DecidableEq

/-- Embeds the Python token read `tokens[i]` (`IndexError` as `.error`),
including negative-index wrapping. -/
def getTok (ts : List String) (i : Int) : Except String String :=
  if pyIndex ts.length i < 0 then .error "list index out of range"
  else
    match ts.get? (pyIndex ts.length i).toNat with
    | some t => .ok t
    | none => .error "list index out of range"

/-- Embeds `int(tokens[i])`. -/
def tokInt (ts : List String) (i : Int) : Except String Int :=
  match getTok ts i with
  | .error m => .error m
  | .ok t =>
    match sasInt t with
    | some v => .ok v
    | none => .error ("invalid literal for int: " ++ t)

/-- Embeds the value-label loop of `_parse_variable`: read `n` lines,
stripping each. -/
def readTrimmed : Nat → Lines → SubResult (List String)
  | 0, ls => .ok [] ls
  | _ + 1, [] => .stop
  | k + 1, l :: ls =>
    match readTrimmed k ls with
    | .ok ats rest => .ok (pyStrip l :: ats) rest
    | .stop => .stop
    | .err m => .err m

/-- Embeds the value loop of `_parse_state`: read `n` lines, each parsed
with `int(...)`. -/
def readInts : Nat → Lines → SubResult (List Int)
  | 0, ls => .ok [] ls
  | _ + 1, [] => .stop
  | k + 1, l :: ls =>
    match sasInt l with
    | none => .err ("invalid literal for int: " ++ pyStrip l)
    | some v =>
      match readInts k ls with
      | .ok vs rest => .ok (v :: vs) rest
      | .stop => .stop
      | .err m => .err m

/-- Embeds the `(var_id, value)` pair loops of `_parse_goal` and of the
prevail section of `_parse_operator`: each line is whitespace-split and
its first two tokens parsed as ints. -/
def readPairs : Nat → Lines → SubResult (List (Int × Int))
  | 0, ls => .ok [] ls
  | _ + 1, [] => .stop
  | k + 1, l :: ls =>
    let ts := pySplit l
    match tokInt ts 0 with
    | .error m => .err m
    | .ok a =>
      match tokInt ts 1 with
      | .error m => .err m
      | .ok b =>
        match readPairs k ls with
        | .ok ps rest => .ok ((a, b) :: ps) rest
        | .stop => .stop
        | .err m => .err m

/-- Embeds `SASParser._parse_variable`: name line, ignored axiom-layer
line, domain size, `range_size` value-label lines, and one consumed (but
never inspected) `end_variable` line. -/
def parseVariable (var_id : Nat) (ls : Lines) : SubResult SASVariable :=
  match ls with
  | [] => .stop
  | nameLine :: ls1 =>
    match ls1 with
    | [] => .stop
    | _layer :: ls2 =>
      match ls2 with
      | [] => .stop
      | rsLine :: ls3 =>
        match sasInt rsLine with
        | none => .err ("invalid literal for int: " ++ pyStrip rsLine)
        | some range_size =>
          match readTrimmed range_size.toNat ls3 with
          | .stop => .stop
          | .err m => .err m
          | .ok atoms ls4 =>
            match ls4 with
            | [] => .stop
            | _endv :: ls5 =>
              .ok ⟨pyStrip nameLine, var_id, range_size, atoms⟩ ls5

/-- The `ValueError` message raised by `_parse_state` on a wrong
terminator; it names the unexpected token. -/
def stateTerminatorMsg (tok : String) : String :=
  "Error parsing state: Expected end_state but found " ++ tok

/-- Embeds `SASParser._parse_state`: one int per known variable, then a
line whose stripped value must equal `end_state`, else a `ValueError`
naming the unexpected token. -/
def parseState (variable_count : Nat) (ls : Lines) : SubResult (List Int) :=
  match readInts variable_count ls with
  | .stop => .stop
  | .err m => .err m
  | .ok vals ls1 =>
    match ls1 with
    | [] => .stop
    | tag :: ls2 =>
      if pyStrip tag = "end_state" then .ok vals ls2
      else .err (stateTerminatorMsg (pyStrip tag))

/-- Embeds `SASParser._parse_goal`: a count, that many pairs, and one
consumed (never inspected) `end_goal` line. -/
def parseGoal (ls : Lines) : SubResult (List (Int × Int)) :=
  match ls with
  | [] => .stop
  | countLine :: ls1 =>
    match sasInt countLine with
    | none => .err ("invalid literal for int: " ++ pyStrip countLine)
    | some count =>
      match readPairs count.toNat ls1 with
      | .stop => .stop
      | .err m => .err m
      | .ok goals ls2 =>
        match ls2 with
        | [] => .stop
        | _endg :: ls3 => .ok goals ls3

/-- The guard-condition loop of an effect line: `k` pairs read at token
positions `1+2i`, `2+2i`. -/
def readConds (ts : List String) : Nat → Nat → Except String (List (Int × Int))
  | 0, _ => .ok []
  | k + 1, i =>
    match tokInt ts ((1 + 2 * i : Nat) : Int) with
    | .error m => .error m
    | .ok cv =>
      match tokInt ts ((2 + 2 * i : Nat) : Int) with
      | .error m => .error m
      | .ok cl =>
        match readConds ts k (i + 1) with
        | .error m => .error m
        | .ok rest => .ok ((cv, cl) :: rest)

/-- Embeds one effect line of `_parse_operator`: guard count, guard
pairs, then the mandatory `(var_id, pre_value, post_value)` triplet at
token offset `1 + 2 * cond_count`.  Returns
`(var_id, pre_value, post_value, conditions)`. -/
def parseEffectLine (line : String) :
    Except String (Int × Int × Int × List (Int × Int)) :=
  let ts := pySplit line
  match tokInt ts 0 with
  | .error m => .error m
  | .ok cond_count =>
    match readConds ts cond_count.toNat 0 with
    | .error m => .error m
    | .ok conds =>
      let base : Int := 1 + 2 * cond_count
      match tokInt ts base with
      | .error m => .error m
      | .ok var_id =>
        match tokInt ts (base + 1) with
        | .error m => .error m
        | .ok pre_val =>
          match tokInt ts (base + 2) with
          | .error m => .error m
          | .ok post_val => .ok (var_id, pre_val, post_val, conds)

/-- The effect-line loop of `_parse_operator`. -/
def readEffects : Nat → Lines → SubResult (List (Int × Int × Int × List (Int × Int)))
  | 0, ls => .ok [] ls
  | _ + 1, [] => .stop
  | k + 1, l :: ls =>
    match parseEffectLine l with
    | .error m => .err m
    | .ok e =>
      match readEffects k ls with
      | .ok es rest => .ok (e :: es) rest
      | .stop => .stop
      | .err m => .err m

/-- Embeds `SASParser._parse_operator`: name, prevail pairs, effect
lines, cost, and one consumed `end_operator` line.  Each effect line with
`pre_value ≠ -1` also appends `(var_id, pre_value)` to the operator's
preconditions, in effect order after the prevail pairs, exactly as the
Python loop does. -/
def parseOperator (ls : Lines) : SubResult SASOperator :=
  match ls with
  | [] => .stop
  | nameLine :: ls1 =>
    match ls1 with
    | [] => .stop
    | pcLine :: ls2 =>
      match sasInt pcLine with
      | none => .err ("invalid literal for int: " ++ pyStrip pcLine)
      | some prevail_count =>
        match readPairs prevail_count.toNat ls2 with
        | .stop => .stop
        | .err m => .err m
        | .ok prevails ls3 =>
          match ls3 with
          | [] => .stop
          | ecLine :: ls4 =>
            match sasInt ecLine with
            | none => .err ("invalid literal for int: " ++ pyStrip ecLine)
            | some effect_count =>
              match readEffects effect_count.toNat ls4 with
              | .stop => .stop
              | .err m => .err m
              | .ok effLines ls5 =>
                match ls5 with
                | [] => .stop
                | costLine :: ls6 =>
                  match sasInt costLine with
                  | none => .err ("invalid literal for int: " ++ pyStrip costLine)
                  | some cost =>
                    match ls6 with
                    | [] => .stop
                    | _endop :: ls7 =>
                      .ok
                        ⟨pyStrip nameLine, cost,
                         prevails ++ effLines.filterMap
                           (fun e => if e.2.1 ≠ -1 then some (e.1, e.2.1) else none),
                         effLines.map (fun e => (e.1, e.2.2.1, e.2.2.2))⟩
                        ls7

/-- The mutable local state of `SASParser.parse`: the placeholders
`version = 3`, `metric = True`, and the four accumulating sections. -/
structure ParseAcc where
  version : Int
  metric : Bool
  «variables» : List SASVariable
  initial_state : List Int
  goal : List (Int × Int)
  operators : List SASOperator
deriving DecidableEq

/-- The placeholder values set at the top of `SASParser.parse`. -/
def initAcc : ParseAcc := ⟨3, true, [], [], [], []⟩

/-- The `SASProblem` returned when the `while` loop of `parse` breaks. -/
def ParseAcc.toProblem (a : ParseAcc) : SASProblem :=
  ⟨a.version, a.metric, a.variables, a.initial_state, a.goal, a.operators⟩

/-- Embeds the `while True` dispatch loop of `SASParser.parse`.  The fuel
argument is the embedding's termination budget; every iteration consumes
at least the head line, so `parse` below, which supplies one fuel unit
per input line, never hits the fuel-exhausted branch.  A `.stop`
(`StopIteration`) from any sub-parser is caught and breaks the loop,
returning the problem accumulated so far; an `.err` (`ValueError` /
`IndexError`) propagates. -/
def parseLoop : Nat → Lines → ParseAcc → Except String SASProblem
  | _, [], acc => .ok acc.toProblem
  | 0, _ :: _, acc => .ok acc.toProblem
  | fuel + 1, rawLine :: rest, acc =>
    let line := pyStrip rawLine
    if line = "begin_version" then
      match rest with
      | [] => .ok acc.toProblem
      | vLine :: rest1 =>
        match sasInt vLine with
        | none => .error ("invalid literal for int: " ++ pyStrip vLine)
        | some v => parseLoop fuel rest1 { acc with version := v }
    else if line = "begin_metric" then
      match rest with
      | [] => .ok acc.toProblem
      | mLine :: rest1 =>
        match sasInt mLine with
        | none => .error ("invalid literal for int: " ++ pyStrip mLine)
        | some v => parseLoop fuel rest1 { acc with metric := v ≠ 0 }
    else if line = "begin_variable" then
      match parseVariable acc.«variables».length rest with
      | .stop => .ok acc.toProblem
      | .err m => .error m
      | .ok v rest1 => parseLoop fuel rest1 { acc with «variables» := acc.«variables» ++ [v] }
    else if line = "begin_state" then
      match parseState acc.«variables».length rest with
      | .stop => .ok acc.toProblem
      | .err m => .error m
      | .ok st rest1 => parseLoop fuel rest1 { acc with initial_state := st }
    else if line = "begin_goal" then
      match parseGoal rest with
      | .stop => .ok acc.toProblem
      | .err m => .error m
      | .ok gl rest1 => parseLoop fuel rest1 { acc with goal := gl }
    else if line = "begin_operator" then
      match parseOperator rest with
      | .stop => .ok acc.toProblem
      | .err m => .error m
      | .ok op rest1 => parseLoop fuel rest1 { acc with operators := acc.operators ++ [op] }
    else
      parseLoop fuel rest acc

/-- Accumulator-based line splitter. -/
def splitLinesAux : List Char → List Char → List String
  | [], cur => [String.mk cur.reverse]
  | c :: cs, cur =>
    if c = '\n' then String.mk cur.reverse :: splitLinesAux cs []
    else splitLinesAux cs (c :: cur)

/-- Embeds `str.splitlines` on an already-stripped string (it contains no
leading or trailing newline, so splitting at each `\n` is exact): the
empty string yields no lines. -/
def splitLines (s : String) : Lines :=
  if s = "" then [] else splitLinesAux s.data []

/-- Embeds `SASParser.parse`: strip the content, split it into lines,
and run the dispatch loop (with enough fuel to finish). -/
def parse (content : String) : Except String SASProblem :=
  let lines := splitLines (pyStrip content)
  parseLoop lines.length lines initAcc

/-! ## Graph builder (`src/graph/builder.py`)

A `networkx.DiGraph` as this code uses it: node identity is full tuple
equality, `add_node` is idempotent, `add_edge u v` inserts missing
endpoints as nodes and overwrites the `weight`/`label` attributes when
the edge already exists. -/

/-- A directed edge carrying the `weight` and `label` attributes. -/
structure Edge where
  src : List Int
  dst : List Int
  weight : Int
  label : String
deriving DecidableEq

/-- A directed graph: node list (no duplicates are ever inserted) plus
edge list (at most one edge per ordered node pair is ever inserted). -/
structure Graph where
  nodes : List (List Int)
  edges : List Edge
deriving DecidableEq

/-- The empty `nx.DiGraph()`. -/
def Graph.empty : Graph := ⟨[], []⟩

/-- Embeds `graph.add_node(s)`: idempotent insertion. -/
def addNode (g : Graph) (s : List Int) : Graph :=
  if s ∈ g.nodes then g else { g with nodes := g.nodes ++ [s] }

/-- Does this edge connect `u` to `v`? -/
def edgeMatches (u v : List Int) (e : Edge) : Bool :=
  e.src == u && e.dst == v

/-- Embeds `graph.has_edge(u, v)`. -/
def hasEdge (g : Graph) (u v : List Int) : Bool :=
  g.edges.any (edgeMatches u v)

/-- Embeds the attribute read `graph[u][v]`. -/
def getEdge (g : Graph) (u v : List Int) : Option Edge :=
  g.edges.find? (edgeMatches u v)

/-- Embeds `graph.add_edge(u, v, weight=w, label=lab)`: missing
endpoints are inserted as nodes; an existing edge has its attributes
overwritten, otherwise the edge is appended. -/
def addEdge (g : Graph) (u v : List Int) (w : Int) (lab : String) : Graph :=
  let g1 := addNode (addNode g u) v
  if hasEdge g1 u v then
    { g1 with
      edges := g1.edges.map (fun e =>
        if edgeMatches u v e then { e with weight := w, label := lab } else e) }
  else
    { g1 with edges := g1.edges ++ [⟨u, v, w, lab⟩] }

/-- Embeds `StateSpaceBuilder._add_or_update_edge`: keep the cheaper
weight; on a strict improvement the label is replaced, otherwise (ties
included) the stored attributes are kept. -/
def addOrUpdateEdge (g : Graph) (u v : List Int) (op : SASOperator) : Graph :=
  match getEdge g u v with
  | some e => if op.cost < e.weight then addEdge g u v op.cost op.name else g
  | none => addEdge g u v op.cost op.name

/-- The body of the per-operator loop of `build_reachable_graph`,
threading `(graph, queue, visited)` exactly as the Python loop mutates
them: skip inapplicable operators; otherwise add/merge the edge and, if
the successor is new, mark it visited, enqueue it and add its node. -/
def bfsProcess (cur : List Int)
    (acc : Graph × List (List Int) × List (List Int)) (op : SASOperator) :
    Graph × List (List Int) × List (List Int) :=
  if op.is_applicable cur then
    let g1 := addOrUpdateEdge acc.1 cur (op.apply cur) op
    if op.apply cur ∈ acc.2.2 then (g1, acc.2.1, acc.2.2)
    else
      (addNode g1 (op.apply cur), acc.2.1 ++ [op.apply cur],
       acc.2.2 ++ [op.apply cur])
  else acc

/-- Embeds the `while queue` loop of `build_reachable_graph` with an
explicit fuel (each iteration pops one queue entry). -/
def bfsLoop (ops : List SASOperator) :
    Nat → List (List Int) → List (List Int) → Graph → Graph
  | 0, _, _, g => g
  | _ + 1, [], _, g => g
  | fuel + 1, cur :: queue, visited, g =>
    let acc := ops.foldl (bfsProcess cur) (g, queue, visited)
    bfsLoop ops fuel acc.2.1 acc.2.2 acc.1

/-- Embeds `StateSpaceBuilder.build_reachable_graph`: BFS from the
initial state, visited set and FIFO frontier both seeded with it.  The
Python loop runs until the frontier empties; here any fuel gives a
prefix of that run and the theorems below hold for every fuel. -/
def buildReachableGraph (p : SASProblem) (fuel : Nat) : Graph :=
  bfsLoop p.operators fuel [p.initial_state] [p.initial_state]
    (addNode Graph.empty p.initial_state)

/-- Embeds `range(v.range_size)` (empty for a nonpositive size). -/
def varRange (v : SASVariable) : List Int :=
  (List.range v.range_size.toNat).map Int.ofNat

/-- Embeds `itertools.product(*var_ranges)`: leftmost factor outermost,
so the rightmost position varies fastest. -/
def cartProd : List (List Int) → List (List Int)
  | [] => [[]]
  | r :: rs => r.flatMap (fun x => (cartProd rs).map (fun t => x :: t))

/-- The `MemoryError` message raised by `build_cartesian_graph`, naming
the attempted size and the configured limit. -/
def capacityMsg (generated : Nat) (limit : Int) : String :=
  "Cartesian graph too large! Generated " ++ toString generated ++
    " states, limit is " ++ toString limit ++
    ". Stick to Reachable Graph or smaller problems."

/-- Embeds `StateSpaceBuilder.build_cartesian_graph`: materialize the
full Cartesian product of the variable ranges, fail with the capacity
`MemoryError` when it exceeds `max_states` (before any node is added to
the graph), otherwise add every state as a node and then run every
operator against every state. -/
def buildCartesianGraph (p : SASProblem) (max_states : Int) :
    Except String Graph :=
  let all_states := cartProd (p.«variables».map varRange)
  if (all_states.length : Int) > max_states then
    .error (capacityMsg all_states.length max_states)
  else
    let g0 := all_states.foldl addNode Graph.empty
    .ok (all_states.foldl
      (fun g state =>
        p.operators.foldl
          (fun g op =>
            if op.is_applicable state then
              addOrUpdateEdge g state (op.apply state) op
            else g)
          g)
      g0)

/-- Is some edge of `g` incident to both `a` and `b` (in either
direction)?  This is adjacency in the undirected view that
`nx.weakly_connected_components` works on. -/
def adjB (g : Graph) (a b : List Int) : Bool :=
  g.edges.any (fun e =>
    (e.src == a && e.dst == b) || (e.src == b && e.dst == a))

/-- One full pass of the weak-connectivity closure: keep every node of
`g` that is already collected or undirectedly adjacent to a collected
node.  The result is always a filter of `g.nodes`. -/
def expandComp (g : Graph) (acc : List (List Int)) : List (List Int) :=
  g.nodes.filter (fun n => acc.contains n || acc.any (fun m => adjB g m n))

/-- Iterated closure passes. -/
def iterExpand (g : Graph) : Nat → List (List Int) → List (List Int)
  | 0, acc => acc
  | k + 1, acc => iterExpand g k (expandComp g acc)

/-- The node set of the weakly connected component of `s`:
`g.nodes.length` closure passes always saturate (proved below). -/
def weakComponentNodes (g : Graph) (s : List Int) : List (List Int) :=
  iterExpand g g.nodes.length (g.nodes.filter (fun n => n == s))

/-- Embeds `graph.subgraph(component).copy()`: the induced subgraph on a
node subset. -/
def subgraphOn (g : Graph) (keep : List (List Int)) : Graph :=
  ⟨keep, g.edges.filter (fun e => keep.contains e.src && keep.contains e.dst)⟩

/-- Embeds `StateSpaceBuilder.get_main_component`: the induced subgraph
on the weakly connected component containing the initial state, or the
`ValueError` when the initial state is not a node of the graph. -/
def get_main_component (g : Graph) (initial_state : List Int) :
    Except String Graph :=
  if initial_state ∈ g.nodes then
    .ok (subgraphOn g (weakComponentNodes g initial_state))
  else
    .error "Initial state not found in the provided graph!"

/-! ## Decidable equality on parser results (for concrete evaluations) -/

deriving instance DecidableEq for Except

/-! ## Claim C10 — unrecognized input -/

/-- The six section markers recognized by the dispatch loop of
`SASParser.parse`. -/
def sectionMarkers : List String :=
  ["begin_version", "begin_metric", "begin_variable", "begin_state",
   "begin_goal", "begin_operator"]

theorem parseLoop_skip (fuel : Nat) (rawLine : String) (rest : Lines)
    (acc : ParseAcc) (h : pyStrip rawLine ∉ sectionMarkers) :
    parseLoop (fuel + 1) (rawLine :: rest) acc = parseLoop fuel rest acc := by
  simp only [sectionMarkers, List.mem_cons, List.not_mem_nil, or_false,
    not_or] at h
  obtain ⟨h1, h2, h3, h4, h5, h6⟩ := h
  simp only [parseLoop, if_neg h1, if_neg h2, if_neg h3, if_neg h4,
    if_neg h5, if_neg h6]

theorem parseLoop_no_markers (ls : Lines) (acc : ParseAcc)
    (h : ∀ l ∈ ls, pyStrip l ∉ sectionMarkers) :
    parseLoop ls.length ls acc = .ok acc.toProblem := by
  induction ls with
  | nil => rfl
  | cons l rest ih =>
    rw [List.length_cons, parseLoop_skip _ _ _ _ (h l (List.mem_cons_self l rest))]
    exact ih (fun x hx => h x (List.mem_cons_of_mem l hx))

/-- Claim C10: an input none of whose (stripped) lines is a recognized
section marker — the empty string included — parses successfully to the
placeholder problem: version 3, metric true, no variables, empty initial
state, empty goal, no operators.  Unrecognized lines are skipped. -/
theorem c10_unrecognized_lines_skipped (content : String)
    (h : ∀ l ∈ splitLines (pyStrip content), pyStrip l ∉ sectionMarkers) :
    parse content = .ok ⟨3, true, [], [], [], []⟩ := by
  unfold parse
  rw [parseLoop_no_markers _ _ h]
  rfl

/-- Witness for C10 at a concrete two-line input with no markers. -/
theorem c10_witness :
    parse "hello\nworld" = .ok ⟨3, true, [], [], [], []⟩ :=
  c10_unrecognized_lines_skipped "hello\nworld" (by decide)

/-! ## Claim C3 — truncated sections

The spec demands a hard `FormatError` on truncation.  The code instead
catches the `StopIteration` that an exhausted line iterator raises inside
any `_parse_*` helper (the same `except StopIteration: break` that ends a
complete parse) and returns the problem accumulated so far — truncation
is silently recovered.  `c3_counterexample` exhibits a truncated variable
section parsing to a `Problem`; `c3_truncation_silently_recovered` proves
the silent recovery in general, for each section kind and any
accumulated prefix state. -/

/-- Counterexample to C3: the input ends inside a required `variable`
section (after the name line), yet `parse` returns a `Problem` — the
placeholder problem with the partial variable discarded — instead of
failing. -/
theorem c3_counterexample :
    parse "begin_variable\nvar0" = .ok ⟨3, true, [], [], [], []⟩ := by
  decide

/-- Claim C3 as amended: when the input ends before a section is
complete (the sub-parser hits end of input, i.e. returns `.stop`), the
dispatch loop of `parse` breaks and returns the `Problem` accumulated
from the sections completed so far — for every section kind and every
accumulated state — rather than failing with an error. -/
theorem c3_truncation_silently_recovered (acc : ParseAcc) (fuel : Nat)
    (rest : Lines) :
    (rest = [] →
      parseLoop (fuel + 1) ("begin_version" :: rest) acc = .ok acc.toProblem) ∧
    (rest = [] →
      parseLoop (fuel + 1) ("begin_metric" :: rest) acc = .ok acc.toProblem) ∧
    (parseVariable acc.«variables».length rest = .stop →
      parseLoop (fuel + 1) ("begin_variable" :: rest) acc = .ok acc.toProblem) ∧
    (parseState acc.«variables».length rest = .stop →
      parseLoop (fuel + 1) ("begin_state" :: rest) acc = .ok acc.toProblem) ∧
    (parseGoal rest = .stop →
      parseLoop (fuel + 1) ("begin_goal" :: rest) acc = .ok acc.toProblem) ∧
    (parseOperator rest = .stop →
      parseLoop (fuel + 1) ("begin_operator" :: rest) acc = .ok acc.toProblem) := by
  refine ⟨?_, ?_, ?_, ?_, ?_, ?_⟩ <;> intro h
  · subst h; rfl
  · subst h; rfl
  · simp only [parseLoop, h]; rfl
  · simp only [parseLoop, h]; rfl
  · simp only [parseLoop, h]; rfl
  · simp only [parseLoop, h]; rfl

/-- Witness for C3 (amended): a variable section truncated right after
its name line is a `.stop`, and the loop returns the accumulated
problem. -/
theorem c3_witness :
    parseVariable 0 ["var0"] = .stop ∧
    parseLoop 1 ["begin_variable", "var0"] initAcc = .ok initAcc.toProblem :=
  ⟨by decide,
   (c3_truncation_silently_recovered initAcc 0 ["var0"]).2.2.1 (by decide)⟩

/-! ## Claim C8 — the `end_state` terminator -/

theorem readInts_append (ls : Lines) (vals : List Int) (rest : Lines)
    (h : ls.mapM sasInt = some vals) :
    readInts ls.length (ls ++ rest) = .ok vals rest := by
  induction ls generalizing vals with
  | nil =>
    simp only [List.mapM_nil, pure, Option.some.injEq] at h
    subst h
    rfl
  | cons l tl ih =>
    rw [List.mapM_cons] at h
    cases hv : sasInt l with
    | none => rw [hv] at h; simp at h
    | some v =>
      rw [hv] at h
      cases htl : tl.mapM sasInt with
      | none => rw [htl] at h; simp at h
      | some vs =>
        rw [htl] at h
        simp at h
        subst h
        simp only [List.length_cons, List.cons_append, readInts, hv,
          List.append_eq]
        rw [ih vs htl]

/-- Claim C8: inside a `state` section whose per-variable lines all parse
as integers, the line right after that block decides the outcome — if its
stripped value differs from `end_state`, both `_parse_state` and the
enclosing `parse` loop fail with the `ValueError` whose message names the
unexpected token; if it equals `end_state`, the parsed initial state is
exactly the tuple of those integers in variable-id order, recorded in the
accumulator. -/
theorem c8_state_terminator (ls : Lines) (vals : List Int) (tok : String)
    (rest : Lines) (acc : ParseAcc) (fuel : Nat)
    (hvals : ls.mapM sasInt = some vals)
    (hlen : acc.«variables».length = ls.length) :
    (pyStrip tok = "end_state" →
      parseState ls.length (ls ++ tok :: rest) = .ok vals rest ∧
      parseLoop (fuel + 1) ("begin_state" :: (ls ++ tok :: rest)) acc =
        parseLoop fuel rest { acc with initial_state := vals }) ∧
    (pyStrip tok ≠ "end_state" →
      parseState ls.length (ls ++ tok :: rest) =
        .err (stateTerminatorMsg (pyStrip tok)) ∧
      parseLoop (fuel + 1) ("begin_state" :: (ls ++ tok :: rest)) acc =
        .error (stateTerminatorMsg (pyStrip tok))) := by
  have hstate : ∀ r : SubResult (List Int),
      r = parseState ls.length (ls ++ tok :: rest) →
      parseLoop (fuel + 1) ("begin_state" :: (ls ++ tok :: rest)) acc =
        (match r with
         | .stop => .ok acc.toProblem
         | .err m => .error m
         | .ok st rest1 => parseLoop fuel rest1 { acc with initial_state := st }) := by
    intro r hr
    simp only [parseLoop]
    rw [if_neg (by decide), if_neg (by decide), if_neg (by decide),
      if_pos (by decide), hlen, ← hr]
  constructor
  · intro htok
    have h1 : parseState ls.length (ls ++ tok :: rest) = .ok vals rest := by
      simp only [parseState, readInts_append ls vals _ hvals, htok, if_pos]
    exact ⟨h1, by rw [hstate _ h1.symm]⟩
  · intro htok
    have h1 : parseState ls.length (ls ++ tok :: rest) =
        .err (stateTerminatorMsg (pyStrip tok)) := by
      simp only [parseState, readInts_append ls vals _ hvals, if_neg htok]
    exact ⟨h1, by rw [hstate _ h1.symm]⟩

/-- Witness for C8: a one-variable state block `["0"]` followed by the
correct terminator parses to state `[0]`; followed by the token
`wrong_tag` it fails with the message naming `wrong_tag`. -/
theorem c8_witness :
    (parseState 1 (["0"] ++ ["end_state"]) = .ok [0] [] ∧
      parseLoop 1 ("begin_state" :: (["0"] ++ ["end_state"]))
          ⟨3, true, [⟨"v", 0, 2, []⟩], [], [], []⟩ =
        parseLoop 0 [] ⟨3, true, [⟨"v", 0, 2, []⟩], [0], [], []⟩) ∧
    (parseState 1 (["0"] ++ ["wrong_tag"]) =
      .err (stateTerminatorMsg "wrong_tag") ∧
      parseLoop 1 ("begin_state" :: (["0"] ++ ["wrong_tag"]))
          ⟨3, true, [⟨"v", 0, 2, []⟩], [], [], []⟩ =
        .error (stateTerminatorMsg "wrong_tag")) :=
  ⟨(c8_state_terminator ["0"] [0] "end_state" []
      ⟨3, true, [⟨"v", 0, 2, []⟩], [], [], []⟩ 0 (by decide) rfl).1 (by decide),
   (c8_state_terminator ["0"] [0] "wrong_tag" []
      ⟨3, true, [⟨"v", 0, 2, []⟩], [], [], []⟩ 0 (by decide) rfl).2 (by decide)⟩

/-! ## Claim C2 — the capacity guard of the Cartesian build -/

/-- The exact product of all variable domain sizes. -/
def domainProduct (p : SASProblem) : Nat :=
  (p.«variables».map (fun v => v.range_size.toNat)).prod

theorem cartProd_length (rs : List (List Int)) :
    (cartProd rs).length = (rs.map List.length).prod := by
  induction rs with
  | nil => rfl
  | cons r rs ih =>
    simp only [cartProd, List.map_cons, List.prod_cons, ← ih,
      List.length_flatMap, List.map_map]
    simp [Function.comp_def, List.map_const]

theorem cartesian_states_length (p : SASProblem) :
    (cartProd (p.«variables».map varRange)).length = domainProduct p := by
  rw [cartProd_length, domainProduct, List.map_map]
  congr 1
  apply List.map_congr_left
  intro v _
  simp [Function.comp_def, varRange]

/-- The problem of `data/switch_simple.sas` (one binary variable, one
`turn_on` operator), as `tests/parser_tests/test_switch_simple.py`
asserts the parser produces it; used as a concrete witness input. -/
def switchProblem : SASProblem :=
  ⟨3, true, [⟨"var0", 0, 2, ["Atom light-is-off", "Atom light-is-on"]⟩],
   [0], [(0, 1)], [⟨"turn_on", 1, [(0, 0)], [(0, 1, [])]⟩]⟩

/-! The C2 theorems live at the end of the file: the faithful statement
needs the exception-propagating evaluation model, whose agreement lemmas
use machinery developed for the later claims. -/

/-! ## Claim C4 — conditional effects and effect order

The guard evaluation against the pre-application snapshot is confirmed:
`c4_effects_pre_state_and_permutation` characterizes `apply` as writing
exactly the effects whose guards hold in the original state, and shows
permuting the effects does not change the successor provided the effects
write pairwise distinct nonnegative variables.  The unrestricted
permutation claim is false: two effects writing different values to the
same variable make the order observable (`c4_counterexample`). -/

/-- Does this effect fire in `state`?  Exactly the guard test of
`SASOperator.apply`. -/
def effectFires (state : List Int) (eff : Int × Int × List (Int × Int)) : Bool :=
  eff.2.2.all (fun c => pyGet state c.1 == some c.2)

theorem foldl_perm_of_comm {α β : Type} (f : β → α → β) :
    ∀ {l₁ l₂ : List α}, l₁.Perm l₂ →
      (∀ x ∈ l₁, ∀ y ∈ l₁, ∀ b, f (f b x) y = f (f b y) x) →
      ∀ b, l₁.foldl f b = l₂.foldl f b := by
  intro l₁ l₂ p
  induction p with
  | nil => intro _ _; rfl
  | cons x p ih =>
    intro comm b
    simp only [List.foldl_cons]
    exact ih (fun a ha c hc => comm a (List.mem_cons_of_mem _ ha)
      c (List.mem_cons_of_mem _ hc)) (f b x)
  | swap x y l =>
    intro comm b
    simp only [List.foldl_cons]
    rw [comm y (by simp) x (by simp)]
  | trans p₁ p₂ ih₁ ih₂ =>
    intro comm b
    rw [ih₁ (fun a ha c hc => comm a ha c hc) b]
    exact ih₂ (fun a ha c hc => comm a (p₁.mem_iff.mpr ha)
      c (p₁.mem_iff.mpr hc)) b

theorem pySet_length (s : List Int) (i v : Int) :
    (pySet s i v).length = s.length := by
  unfold pySet
  split
  · rfl
  · exact List.length_set ..

theorem pySet_of_nonneg {i : Int} (s : List Int) (v : Int) (hi : 0 ≤ i) :
    pySet s i v = s.set i.toNat v := by
  unfold pySet pyIndex
  rw [if_neg (not_lt.mpr hi), if_neg (not_lt.mpr hi)]

theorem pySet_comm (b : List Int) (i j u v : Int) (hi : 0 ≤ i) (hj : 0 ≤ j)
    (hij : i ≠ j) :
    pySet (pySet b i u) j v = pySet (pySet b j v) i u := by
  rw [pySet_of_nonneg _ _ hi, pySet_of_nonneg _ _ hj, pySet_of_nonneg _ _ hj,
    pySet_of_nonneg _ _ hi]
  exact List.set_comm _ _ b (fun hc => hij (by omega))

theorem applyEffect_as_filter_step (s init : List Int)
    (e : Int × Int × List (Int × Int)) :
    applyEffect s init e =
      if effectFires s e then pySet init e.1 e.2.1 else init := rfl

theorem apply_eq_filter_foldl (s : List Int)
    (l : List (Int × Int × List (Int × Int))) :
    ∀ init, l.foldl (applyEffect s) init =
      (l.filter (effectFires s)).foldl (fun ns e => pySet ns e.1 e.2.1) init := by
  induction l with
  | nil => intro init; rfl
  | cons e tl ih =>
    intro init
    rw [List.foldl_cons, List.filter_cons, applyEffect_as_filter_step]
    by_cases h : effectFires s e
    · rw [if_pos h, if_pos h, List.foldl_cons, ih]
    · rw [if_neg h, if_neg (by simpa using h), ih]

/-- Claim C4 as amended.  First, guards read only the pre-application
state: `apply` equals the write-only fold of exactly those effects whose
guards hold in the original state (so an unguarded effect always fires
whenever the operator is applied, and no guard ever sees a
partially-updated value).  Second, permuting the effects of an operator
leaves the successor unchanged provided the effects write pairwise
distinct nonnegative variables. -/
theorem c4_effects_pre_state_and_permutation
    (op1 op2 : SASOperator) (s : List Int)
    (hperm : op1.effects.Perm op2.effects)
    (hbounds : ∀ e ∈ op2.effects, 0 ≤ e.1)
    (hdistinct : (op2.effects.map (fun e => e.1)).Nodup) :
    (∀ op : SASOperator, op.apply s =
      (op.effects.filter (effectFires s)).foldl
        (fun ns e => pySet ns e.1 e.2.1) s) ∧
    op1.apply s = op2.apply s := by
  refine ⟨fun op => apply_eq_filter_foldl s op.effects s, ?_⟩
  show op1.effects.foldl (applyEffect s) s = op2.effects.foldl (applyEffect s) s
  refine foldl_perm_of_comm (applyEffect s) hperm ?_ s
  intro x hx y hy b
  by_cases hxy : x = y
  · rw [hxy]
  · have hx2 := hperm.mem_iff.mp hx
    have hy2 := hperm.mem_iff.mp hy
    have hne : x.1 ≠ y.1 := fun hc =>
      hxy (List.inj_on_of_nodup_map hdistinct hx2 hy2 hc)
    rw [applyEffect_as_filter_step, applyEffect_as_filter_step,
      applyEffect_as_filter_step, applyEffect_as_filter_step]
    by_cases hfx : effectFires s x
    · by_cases hfy : effectFires s y
      · simp only [hfx, hfy, if_true]
        exact pySet_comm b x.1 y.1 x.2.1 y.2.1 (hbounds x hx2) (hbounds y hy2) hne
      · simp [hfx, hfy]
    · by_cases hfy : effectFires s y
      · simp [hfx, hfy]
      · simp [hfx, hfy]

/-- Counterexample to C4 as stated: an applicable operator with two
unguarded effects writing different values to the same variable — the
two effect orders produce different successors. -/
theorem c4_counterexample :
    (⟨"o", 1, [], [(0, 1, []), (0, 2, [])]⟩ : SASOperator).effects.Perm
      (⟨"o", 1, [], [(0, 2, []), (0, 1, [])]⟩ : SASOperator).effects ∧
    (⟨"o", 1, [], [(0, 1, []), (0, 2, [])]⟩ : SASOperator).is_applicable [0] = true ∧
    (⟨"o", 1, [], [(0, 2, []), (0, 1, [])]⟩ : SASOperator).is_applicable [0] = true ∧
    (⟨"o", 1, [], [(0, 1, []), (0, 2, [])]⟩ : SASOperator).apply [0] = [2] ∧
    (⟨"o", 1, [], [(0, 2, []), (0, 1, [])]⟩ : SASOperator).apply [0] = [1] :=
  ⟨List.Perm.swap _ _ _, by decide, by decide, by decide, by decide⟩

/-- Witness for C4 (amended) on the gripper-style `pick` operator: its
two effects write distinct variables, so swapping them leaves the
successor unchanged. -/
theorem c4_witness :
    (⟨"pick", 1, [(0, 0), (1, 0), (2, 0)], [(2, 2, []), (1, 1, [])]⟩
        : SASOperator).apply [0, 0, 0] =
      (⟨"pick", 1, [(0, 0), (1, 0), (2, 0)], [(1, 1, []), (2, 2, [])]⟩
        : SASOperator).apply [0, 0, 0] :=
  (c4_effects_pre_state_and_permutation
    ⟨"pick", 1, [(0, 0), (1, 0), (2, 0)], [(2, 2, []), (1, 1, [])]⟩
    ⟨"pick", 1, [(0, 0), (1, 0), (2, 0)], [(1, 1, []), (2, 2, [])]⟩
    [0, 0, 0] (List.Perm.swap _ _ _) (by decide) (by decide)).2

/-! ## Shared graph lemmas -/

theorem foldl_preserves {α β : Type} (f : β → α → β) (P : β → Prop) :
    ∀ (l : List α) (b : β), (∀ b a, a ∈ l → P b → P (f b a)) → P b →
      P (l.foldl f b) := by
  intro l
  induction l with
  | nil => intro b _ hb; exact hb
  | cons a tl ih =>
    intro b h hb
    exact ih (f b a) (fun b' a' ha' => h b' a' (List.mem_cons_of_mem _ ha'))
      (h b a (List.mem_cons_self _ _) hb)

theorem mem_addNode_iff {g : Graph} {s x : List Int} :
    x ∈ (addNode g s).nodes ↔ x ∈ g.nodes ∨ x = s := by
  unfold addNode
  split
  · next h =>
    constructor
    · exact Or.inl
    · rintro (hx | rfl)
      · exact hx
      · exact h
  · simp [List.mem_append]

theorem addEdge_nodes (g : Graph) (u v : List Int) (w : Int) (lab : String) :
    (addEdge g u v w lab).nodes = (addNode (addNode g u) v).nodes := by
  simp only [addEdge]
  split <;> rfl

theorem mem_addEdge_iff {g : Graph} {u v x : List Int} {w : Int} {lab : String} :
    x ∈ (addEdge g u v w lab).nodes ↔ x ∈ g.nodes ∨ x = u ∨ x = v := by
  rw [addEdge_nodes, mem_addNode_iff, mem_addNode_iff]
  tauto

theorem addOrUpdateEdge_nodes_sub {g : Graph} {u v x : List Int}
    {op : SASOperator} (h : x ∈ (addOrUpdateEdge g u v op).nodes) :
    x ∈ g.nodes ∨ x = u ∨ x = v := by
  rcases hg : getEdge g u v with _ | e
  · simp only [addOrUpdateEdge, hg] at h
    exact mem_addEdge_iff.mp h
  · simp only [addOrUpdateEdge, hg] at h
    by_cases hc : op.cost < e.weight
    · rw [if_pos hc] at h
      exact mem_addEdge_iff.mp h
    · rw [if_neg hc] at h
      exact Or.inl h

theorem addOrUpdateEdge_nodes_mono {g : Graph} {u v x : List Int}
    {op : SASOperator} (h : x ∈ g.nodes) :
    x ∈ (addOrUpdateEdge g u v op).nodes := by
  rcases hg : getEdge g u v with _ | e
  · simp only [addOrUpdateEdge, hg]
    exact mem_addEdge_iff.mpr (Or.inl h)
  · simp only [addOrUpdateEdge, hg]
    by_cases hc : op.cost < e.weight
    · rw [if_pos hc]
      exact mem_addEdge_iff.mpr (Or.inl h)
    · rw [if_neg hc]
      exact h

/-! ## Claim C9 — state tuples keep their length -/

theorem applyEffect_foldl_length (state : List Int)
    (l : List (Int × Int × List (Int × Int))) :
    ∀ init : List Int, (l.foldl (applyEffect state) init).length = init.length := by
  induction l with
  | nil => intro init; rfl
  | cons e tl ih =>
    intro init
    rw [List.foldl_cons, ih]
    rw [applyEffect_as_filter_step]
    split
    · exact pySet_length ..
    · rfl

theorem apply_length (op : SASOperator) (s : List Int) :
    (op.apply s).length = s.length :=
  applyEffect_foldl_length s op.effects s

theorem cartProd_mem_iff {rs : List (List Int)} {s : List Int} :
    s ∈ cartProd rs ↔ List.Forall₂ (fun v r => v ∈ r) s rs := by
  induction rs generalizing s with
  | nil =>
    simp only [cartProd, List.mem_singleton, List.forall₂_nil_right_iff]
  | cons r rs ih =>
    simp only [cartProd, List.mem_flatMap, List.mem_map,
      List.forall₂_cons_right_iff]
    constructor
    · rintro ⟨x, hx, t, ht, rfl⟩
      exact ⟨x, t, hx, ih.mp ht, rfl⟩
    · rintro ⟨x, t, hx, ht, rfl⟩
      exact ⟨x, hx, t, ih.mpr ht, rfl⟩

theorem length_of_mem_cartProd {rs : List (List Int)} {s : List Int}
    (h : s ∈ cartProd rs) : s.length = rs.length :=
  (cartProd_mem_iff.mp h).length_eq

theorem bfsLoop_nodes_length (ops : List SASOperator) (n : Nat) :
    ∀ (fuel : Nat) (queue visited : List (List Int)) (g : Graph),
      (∀ x ∈ g.nodes, x.length = n) → (∀ x ∈ queue, x.length = n) →
      ∀ x ∈ (bfsLoop ops fuel queue visited g).nodes, x.length = n := by
  intro fuel
  induction fuel with
  | zero => intro queue visited g hg _ x hx; exact hg x hx
  | succ fuel ih =>
    intro queue visited g hg hq
    cases queue with
    | nil => exact hg
    | cons cur rest =>
      show ∀ x ∈ (bfsLoop ops fuel _ _ _).nodes, x.length = n
      have hcur : cur.length = n := hq cur (List.mem_cons_self _ _)
      have hrest : ∀ x ∈ rest, x.length = n :=
        fun x hx => hq x (List.mem_cons_of_mem _ hx)
      have hfold := foldl_preserves (bfsProcess cur)
        (fun acc => (∀ x ∈ acc.1.nodes, x.length = n) ∧
          (∀ x ∈ acc.2.1, x.length = n)) ops (g, rest, visited)
        (fun acc op _ hacc => by
          unfold bfsProcess
          split
          · dsimp only
            split
            · exact ⟨fun x hx => by
                rcases addOrUpdateEdge_nodes_sub hx with h | rfl | rfl
                · exact hacc.1 x h
                · exact hcur
                · rw [apply_length]; exact hcur,
                hacc.2⟩
            · refine ⟨fun x hx => ?_, fun x hx => ?_⟩
              · rcases mem_addNode_iff.mp hx with h | rfl
                · rcases addOrUpdateEdge_nodes_sub h with h' | rfl | rfl
                  · exact hacc.1 x h'
                  · exact hcur
                  · rw [apply_length]; exact hcur
                · rw [apply_length]; exact hcur
              · rcases List.mem_append.mp hx with h | h
                · exact hacc.2 x h
                · rw [List.mem_singleton.mp h, apply_length]; exact hcur
          · exact hacc)
        ⟨hg, hrest⟩
      exact ih _ _ _ hfold.1 hfold.2

/-- Claim C9: `apply` always returns a state of the same length as its
input; hence every node of a reachability graph has the length of the
problem initial state, and every node of a successfully built Cartesian
graph has the problem variable count as its length. -/
theorem c9_state_length_invariant :
    (∀ (op : SASOperator) (s : List Int), (op.apply s).length = s.length) ∧
    (∀ (p : SASProblem) (fuel : Nat) (x : List Int),
      x ∈ (buildReachableGraph p fuel).nodes →
        x.length = p.initial_state.length) ∧
    (∀ (p : SASProblem) (m : Int) (g : Graph),
      buildCartesianGraph p m = .ok g →
      ∀ x ∈ g.nodes, x.length = p.«variables».length) := by
  refine ⟨apply_length, ?_, ?_⟩
  · intro p fuel x hx
    refine bfsLoop_nodes_length p.operators p.initial_state.length fuel
      [p.initial_state] [p.initial_state] _ ?_ ?_ x hx
    · intro y hy
      rcases mem_addNode_iff.mp hy with h | rfl
      · exact absurd h (List.not_mem_nil y)
      · rfl
    · intro y hy
      rw [List.mem_singleton.mp hy]
  · intro p m g hok x hx
    have hn : (p.«variables».map varRange).length = p.«variables».length :=
      List.length_map ..
    simp only [buildCartesianGraph] at hok
    split at hok
    · exact absurd hok (by simp)
    · rw [Except.ok.injEq] at hok
      subst hok
      revert x hx
      have base : ∀ x ∈ ((cartProd (p.«variables».map varRange)).foldl
          addNode Graph.empty).nodes, x.length = p.«variables».length := by
        have := foldl_preserves addNode
          (fun g' => ∀ x ∈ g'.nodes, x.length = p.«variables».length)
          (cartProd (p.«variables».map varRange)) Graph.empty
          (fun g' a ha hg' x hx => by
            rcases mem_addNode_iff.mp hx with h | rfl
            · exact hg' x h
            · rw [length_of_mem_cartProd ha, hn])
          (fun x hx => absurd hx (List.not_mem_nil x))
        exact this
      refine foldl_preserves _
        (fun g' : Graph => ∀ x ∈ g'.nodes, x.length = p.«variables».length) _ _
        (fun g' st hst hg' => ?_) base
      refine foldl_preserves _
        (fun g' : Graph => ∀ x ∈ g'.nodes, x.length = p.«variables».length) _ _
        (fun g'' op _ hg'' x hx => ?_) hg'
      have hstlen : st.length = p.«variables».length := by
        rw [length_of_mem_cartProd hst, hn]
      split at hx
      · rcases addOrUpdateEdge_nodes_sub hx with h | rfl | rfl
        · exact hg'' x h
        · exact hstlen
        · rw [apply_length]; exact hstlen
      · exact hg'' x hx

/-- Witness for C9: the parts with hypotheses, instantiated on the
switch problem. -/
theorem c9_witness :
    [1] ∈ (buildReachableGraph switchProblem 3).nodes ∧
    ([1] : List Int).length = switchProblem.initial_state.length ∧
    buildCartesianGraph switchProblem 100000 =
      .ok ⟨[[0], [1]], [⟨[0], [1], 1, "turn_on"⟩]⟩ ∧
    ([0] : List Int).length = switchProblem.«variables».length :=
  ⟨by decide, c9_state_length_invariant.2.1 switchProblem 3 [1] (by decide),
   by decide,
   c9_state_length_invariant.2.2 switchProblem 100000
     ⟨[[0], [1]], [⟨[0], [1], 1, "turn_on"⟩]⟩ (by decide) [0] (by decide)⟩

/-! ## Edge-presence lemmas -/

theorem addNode_edges (g : Graph) (s : List Int) :
    (addNode g s).edges = g.edges := by
  unfold addNode
  split <;> rfl

theorem edgeMatches_update (u v a b : List Int) (w : Int) (lab : String)
    (e : Edge) :
    edgeMatches a b
      (if edgeMatches u v e = true then
        { e with weight := w, label := lab } else e) = edgeMatches a b e := by
  split <;> rfl

theorem hasEdge_addNode (g : Graph) (s a b : List Int) :
    hasEdge (addNode g s) a b = hasEdge g a b := by
  unfold hasEdge
  rw [addNode_edges]

theorem hasEdge_addEdge (g : Graph) (u v a b : List Int) (w : Int)
    (lab : String) :
    hasEdge (addEdge g u v w lab) a b = true ↔
      hasEdge g a b = true ∨ (a = u ∧ b = v) := by
  simp only [addEdge]
  split
  · next hold =>
    rw [hasEdge_addNode, hasEdge_addNode] at hold
    show ((addNode (addNode g u) v).edges.map _).any (edgeMatches a b) = true ↔ _
    rw [addNode_edges, addNode_edges, List.any_map]
    have hfun : (edgeMatches a b ∘ fun e =>
        if edgeMatches u v e = true then
          { e with weight := w, label := lab } else e) = edgeMatches a b :=
      funext fun e => edgeMatches_update u v a b w lab e
    rw [hfun]
    show hasEdge g a b = true ↔ _
    constructor
    · exact Or.inl
    · rintro (h | ⟨rfl, rfl⟩)
      · exact h
      · exact hold
  · show ((addNode (addNode g u) v).edges ++
      [({ src := u, dst := v, weight := w, label := lab } : Edge)]).any
        (edgeMatches a b) = true ↔ _
    rw [addNode_edges, addNode_edges, List.any_append]
    show (hasEdge g a b || _) = true ↔ _
    simp only [Bool.or_eq_true, List.any_cons, List.any_nil, Bool.or_false]
    constructor
    · rintro (h | h)
      · exact Or.inl h
      · right
        simp only [edgeMatches, Bool.and_eq_true, beq_iff_eq] at h
        exact ⟨h.1.symm, h.2.symm⟩
    · rintro (h | ⟨rfl, rfl⟩)
      · exact Or.inl h
      · right
        simp [edgeMatches]

theorem hasEdge_of_getEdge_some {g : Graph} {u v : List Int} {e : Edge}
    (h : getEdge g u v = some e) : hasEdge g u v = true := by
  have hm := List.mem_of_find?_eq_some h
  have hp := List.find?_some h
  exact List.any_eq_true.mpr ⟨e, hm, hp⟩

theorem hasEdge_addOrUpdateEdge (g : Graph) (u v a b : List Int)
    (op : SASOperator) :
    hasEdge (addOrUpdateEdge g u v op) a b = true ↔
      hasEdge g a b = true ∨ (a = u ∧ b = v) := by
  rcases hg : getEdge g u v with _ | e
  · simp only [addOrUpdateEdge, hg]
    exact hasEdge_addEdge ..
  · simp only [addOrUpdateEdge, hg]
    split
    · exact hasEdge_addEdge ..
    · constructor
      · exact Or.inl
      · rintro (h | ⟨rfl, rfl⟩)
        · exact h
        · exact hasEdge_of_getEdge_some hg

theorem hasEdge_addOrUpdateEdge_self (g : Graph) (u v : List Int)
    (op : SASOperator) :
    hasEdge (addOrUpdateEdge g u v op) u v = true :=
  (hasEdge_addOrUpdateEdge g u v u v op).mpr (Or.inr ⟨rfl, rfl⟩)

theorem hasEdge_addOrUpdateEdge_mono {g : Graph} {a b : List Int}
    (u v : List Int) (op : SASOperator) (h : hasEdge g a b = true) :
    hasEdge (addOrUpdateEdge g u v op) a b = true :=
  (hasEdge_addOrUpdateEdge g u v a b op).mpr (Or.inl h)

/-! ## Claim C6 — reachability soundness -/

/-- Reachability along zero or more directed edges of the graph `g`. -/
inductive GReach (g : Graph) : List Int → List Int → Prop where
  | refl (s : List Int) : GReach g s s
  | tail {a b c : List Int} : GReach g a b → hasEdge g b c = true → GReach g a c

theorem GReach.mono {g g' : Graph}
    (hsub : ∀ a b, hasEdge g a b = true → hasEdge g' a b = true)
    {x y : List Int} (h : GReach g x y) : GReach g' x y := by
  induction h with
  | refl => exact .refl _
  | tail _ he ih => exact .tail ih (hsub _ _ he)

theorem bfsLoop_sound (ops : List SASOperator) (init : List Int) :
    ∀ (fuel : Nat) (queue visited : List (List Int)) (g : Graph),
      init ∈ g.nodes →
      (∀ s ∈ g.nodes, GReach g init s) →
      (∀ s ∈ queue, GReach g init s) →
      init ∈ (bfsLoop ops fuel queue visited g).nodes ∧
        ∀ s ∈ (bfsLoop ops fuel queue visited g).nodes,
          GReach (bfsLoop ops fuel queue visited g) init s := by
  intro fuel
  induction fuel with
  | zero => intro queue visited g h1 h2 _; exact ⟨h1, h2⟩
  | succ fuel ih =>
    intro queue visited g h1 h2 hq
    cases queue with
    | nil => exact ⟨h1, h2⟩
    | cons cur rest =>
      show init ∈ (bfsLoop ops fuel _ _ _).nodes ∧ _
      have hcur : GReach g init cur := hq cur (List.mem_cons_self _ _)
      have hrest : ∀ s ∈ rest, GReach g init s :=
        fun s hs => hq s (List.mem_cons_of_mem _ hs)
      have hfold := foldl_preserves (bfsProcess cur)
        (fun acc : Graph × List (List Int) × List (List Int) =>
          init ∈ acc.1.nodes ∧ (∀ s ∈ acc.1.nodes, GReach acc.1 init s) ∧
            (∀ s ∈ acc.2.1, GReach acc.1 init s) ∧ GReach acc.1 init cur)
        ops (g, rest, visited)
        (fun acc op _ hacc => by
          obtain ⟨ha1, ha2, ha3, ha4⟩ := hacc
          unfold bfsProcess
          split
          · dsimp only
            have hmono1 : ∀ a b, hasEdge acc.1 a b = true →
                hasEdge (addOrUpdateEdge acc.1 cur (op.apply cur) op) a b
                  = true := fun a b h => hasEdge_addOrUpdateEdge_mono _ _ op h
            split
            · refine ⟨addOrUpdateEdge_nodes_mono ha1, ?_,
                fun s hs => (ha3 s hs).mono hmono1, ha4.mono hmono1⟩
              intro s hs
              rcases addOrUpdateEdge_nodes_sub hs with h | rfl | rfl
              · exact (ha2 s h).mono hmono1
              · exact ha4.mono hmono1
              · exact .tail (ha4.mono hmono1) (hasEdge_addOrUpdateEdge_self ..)
            · have hmono2 : ∀ a b, hasEdge acc.1 a b = true →
                  hasEdge (addNode (addOrUpdateEdge acc.1 cur (op.apply cur) op)
                    (op.apply cur)) a b = true := fun a b h => by
                rw [hasEdge_addNode]
                exact hmono1 a b h
              have hreach_nxt : GReach (addNode (addOrUpdateEdge acc.1 cur
                  (op.apply cur) op) (op.apply cur)) init (op.apply cur) := by
                refine .tail (ha4.mono hmono2) ?_
                rw [hasEdge_addNode]
                exact hasEdge_addOrUpdateEdge_self ..
              refine ⟨mem_addNode_iff.mpr
                (Or.inl (addOrUpdateEdge_nodes_mono ha1)), ?_, ?_,
                ha4.mono hmono2⟩
              · intro s hs
                rcases mem_addNode_iff.mp hs with h | rfl
                · rcases addOrUpdateEdge_nodes_sub h with h' | rfl | rfl
                  · exact (ha2 s h').mono hmono2
                  · exact ha4.mono hmono2
                  · exact hreach_nxt
                · exact hreach_nxt
              · intro s hs
                rcases List.mem_append.mp hs with h | h
                · exact (ha3 s h).mono hmono2
                · rw [List.mem_singleton.mp h]
                  exact hreach_nxt
          · exact ⟨ha1, ha2, ha3, ha4⟩)
        ⟨h1, h2, hrest, hcur⟩
      exact ih _ _ _ hfold.1 hfold.2.1 hfold.2.2.1

/-- Claim C6: the initial state is always a node of the reachability
graph, and every node of the reachability graph is reachable from the
initial state along zero or more directed edges of that same graph. -/
theorem c6_reachability_soundness (p : SASProblem) (fuel : Nat) :
    p.initial_state ∈ (buildReachableGraph p fuel).nodes ∧
    ∀ s ∈ (buildReachableGraph p fuel).nodes,
      GReach (buildReachableGraph p fuel) p.initial_state s := by
  refine bfsLoop_sound p.operators p.initial_state fuel
    [p.initial_state] [p.initial_state] _ ?_ ?_ ?_
  · exact mem_addNode_iff.mpr (Or.inr rfl)
  · intro s hs
    rcases mem_addNode_iff.mp hs with h | rfl
    · exact absurd h (List.not_mem_nil s)
    · exact .refl _
  · intro s hs
    rw [List.mem_singleton.mp hs]
    exact .refl _

/-- Witness for C6: in the switch problem, the node `[1]` of the
reachability graph is reachable from the initial state `[0]`. -/
theorem c6_witness :
    [1] ∈ (buildReachableGraph switchProblem 3).nodes ∧
    GReach (buildReachableGraph switchProblem 3)
      switchProblem.initial_state [1] :=
  ⟨by decide,
   (c6_reachability_soundness switchProblem 3).2 [1] (by decide)⟩

/-! ## Claim C5 — the edge merge policy -/

/-- The `(weight, label)` attributes stored on the edge `u → v`. -/
def edgeData (g : Graph) (u v : List Int) : Option (Int × String) :=
  (getEdge g u v).map (fun e => (e.weight, e.label))

/-- The merge policy of `_add_or_update_edge` on the attributes of one
ordered pair: first operator installs its cost and name; a later one
replaces them only on a strictly cheaper cost. -/
def mergeStep (cur : Option (Int × String)) (op : SASOperator) :
    Option (Int × String) :=
  match cur with
  | none => some (op.cost, op.name)
  | some (w, l) => if op.cost < w then some (op.cost, op.name) else some (w, l)

/-- Folding the merge policy over a list of operators realizing the same
transition. -/
def mergeAll (start : Option (Int × String)) (ops : List SASOperator) :
    Option (Int × String) :=
  ops.foldl mergeStep start

theorem getEdge_none_iff_hasEdge {g : Graph} {u v : List Int} :
    getEdge g u v = none ↔ hasEdge g u v = false := by
  constructor
  · intro h
    cases hh : hasEdge g u v
    · rfl
    · obtain ⟨e, he, hm⟩ := List.any_eq_true.mp hh
      rw [show getEdge g u v = List.find? (edgeMatches u v) g.edges from rfl,
        List.find?_eq_none] at h
      exact absurd hm (h e he)
  · intro h
    rw [show getEdge g u v = List.find? (edgeMatches u v) g.edges from rfl,
      List.find?_eq_none]
    intro e he hm
    rw [show hasEdge g u v = true from List.any_eq_true.mpr ⟨e, he, hm⟩] at h
    simp at h

theorem getEdge_addEdge_self (g : Graph) (u v : List Int) (w : Int)
    (lab : String) (e : Edge) (he : getEdge g u v = some e) :
    getEdge (addEdge g u v w lab) u v =
      some { e with weight := w, label := lab } := by
  have hhas : hasEdge g u v = true := hasEdge_of_getEdge_some he
  simp only [addEdge]
  rw [if_pos (by rw [hasEdge_addNode, hasEdge_addNode]; exact hhas)]
  show List.find? _ (List.map _ (addNode (addNode g u) v).edges) = _
  rw [addNode_edges, addNode_edges, List.find?_map]
  have hfun : (edgeMatches u v ∘ fun e : Edge =>
      if edgeMatches u v e = true then
        { e with weight := w, label := lab } else e) = edgeMatches u v :=
    funext fun e => edgeMatches_update u v u v w lab e
  rw [hfun]
  show (getEdge g u v).map _ = _
  rw [he]
  have hm : edgeMatches u v e = true := List.find?_some he
  simp only [Option.map_some']
  rw [if_pos hm]

theorem getEdge_addEdge_new (g : Graph) (u v : List Int) (w : Int)
    (lab : String) (he : getEdge g u v = none) :
    getEdge (addEdge g u v w lab) u v =
      some { src := u, dst := v, weight := w, label := lab } := by
  have hhas : hasEdge g u v = false := getEdge_none_iff_hasEdge.mp he
  simp only [addEdge]
  rw [if_neg (by rw [hasEdge_addNode, hasEdge_addNode, hhas]; simp)]
  show List.find? _ ((addNode (addNode g u) v).edges ++ _) = _
  rw [addNode_edges, addNode_edges, List.find?_append]
  show (getEdge g u v).or _ = _
  rw [he, Option.none_or]
  simp [edgeMatches]

theorem edgeData_addOrUpdateEdge (g : Graph) (u v : List Int)
    (op : SASOperator) :
    edgeData (addOrUpdateEdge g u v op) u v =
      mergeStep (edgeData g u v) op := by
  rcases hg : getEdge g u v with _ | e
  · simp only [addOrUpdateEdge, hg, edgeData,
      getEdge_addEdge_new g u v op.cost op.name hg]
    rfl
  · simp only [addOrUpdateEdge, hg, edgeData]
    split
    · rw [getEdge_addEdge_self g u v op.cost op.name e hg]
      simp only [Option.map_some', mergeStep]
      rw [if_pos (by assumption)]
    · rw [hg]
      simp only [Option.map_some', mergeStep]
      rw [if_neg (by assumption)]

theorem edgeData_foldl (g : Graph) (u v : List Int) (ops : List SASOperator) :
    edgeData (ops.foldl (fun h op => addOrUpdateEdge h u v op) g) u v =
      mergeAll (edgeData g u v) ops := by
  induction ops generalizing g with
  | nil => rfl
  | cons op tl ih =>
    rw [List.foldl_cons]
    show edgeData (tl.foldl _ (addOrUpdateEdge g u v op)) u v = _
    rw [ih (addOrUpdateEdge g u v op), edgeData_addOrUpdateEdge]
    rfl

theorem mergeAll_weight (ops : List SASOperator) :
    ∀ start : Option (Int × String),
      (mergeAll start ops).map Prod.fst =
        ops.foldl
          (fun acc op =>
            match acc with
            | none => some op.cost
            | some w => some (min w op.cost))
          (start.map Prod.fst) := by
  induction ops with
  | nil => intro start; rfl
  | cons op tl ih =>
    intro start
    show (mergeAll (mergeStep start op) tl).map Prod.fst = _
    rw [ih]
    rcases start with _ | ⟨w, l⟩
    · rfl
    · show _ = tl.foldl _ (some (min w op.cost))
      by_cases h : op.cost < w
      · simp only [mergeStep, if_pos h, Option.map_some']
        rw [min_eq_right (le_of_lt h)]
      · simp only [mergeStep, if_neg h, Option.map_some']
        rw [min_eq_left (le_of_not_lt h)]

theorem mergeAll_weight_perm {ops₁ ops₂ : List SASOperator}
    (hperm : ops₁.Perm ops₂) (start : Option (Int × String)) :
    (mergeAll start ops₁).map Prod.fst = (mergeAll start ops₂).map Prod.fst := by
  rw [mergeAll_weight, mergeAll_weight]
  refine foldl_perm_of_comm _ hperm (fun x _ y _ b => ?_) _
  rcases b with _ | w
  · show some (min x.cost y.cost) = some (min y.cost x.cost)
    rw [min_comm]
  · show some (min (min w x.cost) y.cost) = some (min (min w y.cost) x.cost)
    rw [min_right_comm]

theorem mergeAll_keep (ops : List SASOperator) :
    ∀ (w : Int) (l : String), (∀ op ∈ ops, ¬ op.cost < w) →
      mergeAll (some (w, l)) ops = some (w, l) := by
  induction ops with
  | nil => intro w l _; rfl
  | cons op tl ih =>
    intro w l h
    show mergeAll (mergeStep (some (w, l)) op) tl = _
    rw [show mergeStep (some (w, l)) op = some (w, l) from by
      simp only [mergeStep]
      rw [if_neg (h op (List.mem_cons_self _ _))]]
    exact ih w l (fun o ho => h o (List.mem_cons_of_mem _ ho))

theorem mergeAll_unique_some (ops : List SASOperator) (op₀ : SASOperator) :
    ∀ (w : Int) (l : String), op₀ ∈ ops →
      (∀ op ∈ ops, op = op₀ ∨ op₀.cost < op.cost) → op₀.cost < w →
      mergeAll (some (w, l)) ops = some (op₀.cost, op₀.name) := by
  induction ops with
  | nil => intro w l hmem _ _; exact absurd hmem (List.not_mem_nil _)
  | cons op tl ih =>
    intro w l hmem huniq hlt
    show mergeAll (mergeStep (some (w, l)) op) tl = _
    by_cases hop : op = op₀
    · subst hop
      rw [show mergeStep (some (w, l)) op = some (op.cost, op.name) from by
        simp only [mergeStep]
        rw [if_pos hlt]]
      refine mergeAll_keep tl op.cost op.name (fun o ho => ?_)
      rcases huniq o (List.mem_cons_of_mem _ ho) with rfl | hgt
      · exact lt_irrefl _
      · exact not_lt.mpr (le_of_lt hgt)
    · have hgt : op₀.cost < op.cost := by
        rcases huniq op (List.mem_cons_self _ _) with h | h
        · exact absurd h hop
        · exact h
      have hmem' : op₀ ∈ tl := by
        rcases List.mem_cons.mp hmem with h | h
        · exact absurd h.symm hop
        · exact h
      have huniq' : ∀ o ∈ tl, o = op₀ ∨ op₀.cost < o.cost :=
        fun o ho => huniq o (List.mem_cons_of_mem _ ho)
      simp only [mergeStep]
      split
      · exact ih op.cost op.name hmem' huniq' hgt
      · exact ih w l hmem' huniq' hlt

theorem mergeAll_unique (ops : List SASOperator) (op₀ : SASOperator)
    (hmem : op₀ ∈ ops) (huniq : ∀ op ∈ ops, op = op₀ ∨ op₀.cost < op.cost) :
    mergeAll none ops = some (op₀.cost, op₀.name) := by
  cases ops with
  | nil => exact absurd hmem (List.not_mem_nil _)
  | cons op tl =>
    show mergeAll (some (op.cost, op.name)) tl = _
    by_cases hop : op = op₀
    · subst hop
      refine mergeAll_keep tl op.cost op.name (fun o ho => ?_)
      rcases huniq o (List.mem_cons_of_mem _ ho) with rfl | hgt
      · exact lt_irrefl _
      · exact not_lt.mpr (le_of_lt hgt)
    · have hgt : op₀.cost < op.cost := by
        rcases huniq op (List.mem_cons_self _ _) with h | h
        · exact absurd h hop
        · exact h
      have hmem' : op₀ ∈ tl := by
        rcases List.mem_cons.mp hmem with h | h
        · exact absurd h.symm hop
        · exact h
      exact mergeAll_unique_some tl op₀ op.cost op.name hmem'
        (fun o ho => huniq o (List.mem_cons_of_mem _ ho)) hgt

/-- Claim C5: the merge policy of `_add_or_update_edge` (used identically
by both builders).  A first operator installs `(cost, name)`; a later
operator realizing the same ordered transition leaves the stored weight
at the minimum of the old weight and its cost, with the label following
the operator that produced that minimum and ties keeping the stored
label.  Consequently, over any operator sequence the resulting weight is
permutation-invariant, and when one operator is the strict cheapest the
resulting label is its name regardless of order. -/
theorem c5_edge_merge_policy (g : Graph) (u v : List Int) :
    (∀ op : SASOperator, edgeData g u v = none →
      edgeData (addOrUpdateEdge g u v op) u v = some (op.cost, op.name)) ∧
    (∀ (op : SASOperator) (w : Int) (l : String),
      edgeData g u v = some (w, l) →
      edgeData (addOrUpdateEdge g u v op) u v =
        some (min op.cost w, if op.cost < w then op.name else l)) ∧
    (∀ ops : List SASOperator,
      edgeData (ops.foldl (fun h op => addOrUpdateEdge h u v op) g) u v =
        mergeAll (edgeData g u v) ops) ∧
    (∀ (ops₁ ops₂ : List SASOperator) (start : Option (Int × String)),
      ops₁.Perm ops₂ →
      (mergeAll start ops₁).map Prod.fst = (mergeAll start ops₂).map Prod.fst) ∧
    (∀ (ops : List SASOperator) (op₀ : SASOperator), op₀ ∈ ops →
      (∀ op ∈ ops, op = op₀ ∨ op₀.cost < op.cost) →
      mergeAll none ops = some (op₀.cost, op₀.name)) := by
  refine ⟨?_, ?_, fun ops => edgeData_foldl g u v ops,
    fun ops₁ ops₂ start h => mergeAll_weight_perm h start,
    fun ops op₀ h1 h2 => mergeAll_unique ops op₀ h1 h2⟩
  · intro op h
    rw [edgeData_addOrUpdateEdge, h]
    rfl
  · intro op w l h
    rw [edgeData_addOrUpdateEdge, h]
    by_cases hc : op.cost < w
    · simp only [mergeStep]
      rw [if_pos hc, min_eq_left (le_of_lt hc), if_pos hc]
    · simp only [mergeStep]
      rw [if_neg hc, min_eq_right (le_of_not_lt hc), if_neg hc]

/-- Witness for C5: the spec merge scenario — two operators with costs 5
and 3 realizing the same transition yield weight 3 and the cheaper
operator name, in either declaration order. -/
theorem c5_witness :
    edgeData (([⟨"op5", 5, [], []⟩, ⟨"op3", 3, [], []⟩] :
        List SASOperator).foldl
      (fun h op => addOrUpdateEdge h [0] [1] op) Graph.empty) [0] [1] =
      some (3, "op3") ∧
    edgeData (([⟨"op3", 3, [], []⟩, ⟨"op5", 5, [], []⟩] :
        List SASOperator).foldl
      (fun h op => addOrUpdateEdge h [0] [1] op) Graph.empty) [0] [1] =
      some (3, "op3") :=
  ⟨((c5_edge_merge_policy Graph.empty [0] [1]).2.2.1
      [⟨"op5", 5, [], []⟩, ⟨"op3", 3, [], []⟩]).trans (by decide),
   ((c5_edge_merge_policy Graph.empty [0] [1]).2.2.1
      [⟨"op3", 3, [], []⟩, ⟨"op5", 5, [], []⟩]).trans (by decide)⟩

/-! ## Well-formed problems

The parser performs no range validation: a parsed initial state or an
effect post-value may lie outside its variable domain.  The Cartesian
characterizations below hold for well-formed problems; `c7_counterexample`
shows they fail without this hypothesis. -/

/-- Every initial-state value lies in its variable domain, and every
effect writes a value of its (existing) target variable domain. -/
def WellFormedProblem (p : SASProblem) : Prop :=
  p.initial_state ∈ cartProd (p.«variables».map varRange) ∧
  ∀ op ∈ p.operators, ∀ e ∈ op.effects,
    0 ≤ e.1 ∧ e.1 < (p.«variables».length : Int) ∧
      e.2.1 ∈ (p.«variables».map varRange).getD e.1.toNat []

instance (p : SASProblem) : Decidable (WellFormedProblem p) := by
  unfold WellFormedProblem
  infer_instance

theorem forall₂_mem_set :
    ∀ {rs : List (List Int)} {s : List Int},
      List.Forall₂ (fun val r => val ∈ r) s rs →
      ∀ {i : Nat}, i < rs.length → ∀ {v : Int}, v ∈ rs.getD i [] →
      List.Forall₂ (fun val r => val ∈ r) (s.set i v) rs := by
  intro rs s h
  induction h with
  | nil => intro i hi; simp at hi
  | cons ha htail ih =>
    intro i hi v hv
    cases i with
    | zero =>
      rw [List.getD_cons_zero] at hv
      exact List.Forall₂.cons hv htail
    | succ i =>
      rw [List.getD_cons_succ] at hv
      rw [List.length_cons, Nat.succ_lt_succ_iff] at hi
      exact List.Forall₂.cons ha (ih hi hv)

theorem apply_mem_cartProd {p : SASProblem} (hwf : WellFormedProblem p)
    {op : SASOperator} (hop : op ∈ p.operators) {s : List Int}
    (hs : s ∈ cartProd (p.«variables».map varRange)) :
    op.apply s ∈ cartProd (p.«variables».map varRange) := by
  rw [cartProd_mem_iff] at hs ⊢
  show List.Forall₂ _ (op.effects.foldl (applyEffect s) s) _
  refine foldl_preserves (applyEffect s)
    (fun ns => List.Forall₂ (fun val r => val ∈ r) ns
      (p.«variables».map varRange)) op.effects s
    (fun ns e he hns => ?_) hs
  rw [applyEffect_as_filter_step]
  split
  · obtain ⟨h0, h1, h2⟩ := hwf.2 op hop e he
    rw [pySet_of_nonneg _ _ h0]
    refine forall₂_mem_set hns ?_ h2
    rw [List.length_map]
    omega
  · exact hns

/-- Abstract reachability by operator application from the initial
state. -/
inductive ReachAbs (p : SASProblem) : List Int → Prop where
  | init : ReachAbs p p.initial_state
  | step {s : List Int} (op : SASOperator) : ReachAbs p s →
      op ∈ p.operators → op.is_applicable s = true → ReachAbs p (op.apply s)

theorem reachAbs_mem_cartProd {p : SASProblem} (hwf : WellFormedProblem p) :
    ∀ {s : List Int}, ReachAbs p s →
      s ∈ cartProd (p.«variables».map varRange) := by
  intro s h
  induction h with
  | init => exact hwf.1
  | step op _ hop _ ih => exact apply_mem_cartProd hwf hop ih

theorem bfsLoop_reachAbs (p : SASProblem) :
    ∀ (fuel : Nat) (queue visited : List (List Int)) (g : Graph),
      (∀ s ∈ g.nodes, ReachAbs p s) → (∀ s ∈ queue, ReachAbs p s) →
      ∀ s ∈ (bfsLoop p.operators fuel queue visited g).nodes, ReachAbs p s := by
  intro fuel
  induction fuel with
  | zero => intro queue visited g hg _; exact hg
  | succ fuel ih =>
    intro queue visited g hg hq
    cases queue with
    | nil => exact hg
    | cons cur rest =>
      show ∀ s ∈ (bfsLoop p.operators fuel _ _ _).nodes, ReachAbs p s
      have hcur : ReachAbs p cur := hq cur (List.mem_cons_self _ _)
      have hrest : ∀ s ∈ rest, ReachAbs p s :=
        fun s hs => hq s (List.mem_cons_of_mem _ hs)
      have hfold := foldl_preserves (bfsProcess cur)
        (fun acc : Graph × List (List Int) × List (List Int) =>
          (∀ s ∈ acc.1.nodes, ReachAbs p s) ∧ (∀ s ∈ acc.2.1, ReachAbs p s))
        p.operators (g, rest, visited)
        (fun acc op hop hacc => by
          unfold bfsProcess
          split
          · next happ =>
            have hnxt : ReachAbs p (op.apply cur) := .step op hcur hop happ
            dsimp only
            split
            · refine ⟨fun s hs => ?_, hacc.2⟩
              rcases addOrUpdateEdge_nodes_sub hs with h | rfl | rfl
              · exact hacc.1 s h
              · exact hcur
              · exact hnxt
            · refine ⟨fun s hs => ?_, fun s hs => ?_⟩
              · rcases mem_addNode_iff.mp hs with h | rfl
                · rcases addOrUpdateEdge_nodes_sub h with h' | rfl | rfl
                  · exact hacc.1 s h'
                  · exact hcur
                  · exact hnxt
                · exact hnxt
              · rcases List.mem_append.mp hs with h | h
                · exact hacc.2 s h
                · rw [List.mem_singleton.mp h]
                  exact hnxt
          · exact hacc)
        ⟨hg, hrest⟩
      exact ih _ _ _ hfold.1 hfold.2

theorem buildReachable_reachAbs (p : SASProblem) (fuel : Nat) :
    ∀ s ∈ (buildReachableGraph p fuel).nodes, ReachAbs p s := by
  refine bfsLoop_reachAbs p fuel [p.initial_state] [p.initial_state] _ ?_ ?_
  · intro s hs
    rcases mem_addNode_iff.mp hs with h | rfl
    · exact absurd h (List.not_mem_nil s)
    · exact .init
  · intro s hs
    rw [List.mem_singleton.mp hs]
    exact .init

/-! ## Claim C7 — Cartesian completeness -/

theorem varRange_nodup (v : SASVariable) : (varRange v).Nodup :=
  (List.nodup_range _).map (fun _ _ h => Int.ofNat_inj.mp h)

theorem cartProd_nodup :
    ∀ {rs : List (List Int)}, (∀ r ∈ rs, r.Nodup) → (cartProd rs).Nodup := by
  intro rs
  induction rs with
  | nil => intro _; simp [cartProd]
  | cons r tl ih =>
    intro h
    show (r.flatMap _).Nodup
    rw [List.nodup_flatMap]
    constructor
    · intro x _
      exact (ih (fun r' hr' => h r' (List.mem_cons_of_mem _ hr'))).map
        (fun t₁ t₂ ht => by injection ht)
    · have hr : r.Nodup := h r (List.mem_cons_self _ _)
      refine hr.pairwise_of_forall_ne (fun a ha b hb hab => ?_)
      intro t ht₁ ht₂
      obtain ⟨u₁, _, hu₁⟩ := List.mem_map.mp ht₁
      obtain ⟨u₂, _, hu₂⟩ := List.mem_map.mp ht₂
      rw [← hu₁] at hu₂
      injection hu₂ with hh _
      exact hab hh.symm

theorem addNode_id {g : Graph} {s : List Int} (h : s ∈ g.nodes) :
    addNode g s = g := by
  unfold addNode
  rw [if_pos h]

theorem foldl_addNode_nodes :
    ∀ (l : List (List Int)) (g0 : Graph), l.Nodup →
      (∀ x ∈ l, x ∉ g0.nodes) →
      (l.foldl addNode g0).nodes = g0.nodes ++ l := by
  intro l
  induction l with
  | nil => intro g0 _ _; simp
  | cons a tl ih =>
    intro g0 hnodup hdisj
    rw [List.foldl_cons]
    have ha : (addNode g0 a).nodes = g0.nodes ++ [a] := by
      unfold addNode
      rw [if_neg (hdisj a (List.mem_cons_self _ _))]
    rw [ih (addNode g0 a) hnodup.of_cons (fun x hx => by
      rw [ha, List.mem_append, List.mem_singleton]
      rintro (h | rfl)
      · exact hdisj x (List.mem_cons_of_mem _ hx) h
      · exact (List.nodup_cons.mp hnodup).1 hx), ha]
    simp

theorem addOrUpdateEdge_nodes_id {g : Graph} {u v : List Int}
    {op : SASOperator} (hu : u ∈ g.nodes) (hv : v ∈ g.nodes) :
    (addOrUpdateEdge g u v op).nodes = g.nodes := by
  have haddE : (addEdge g u v op.cost op.name).nodes = g.nodes := by
    rw [addEdge_nodes, addNode_id (by rw [mem_addNode_iff]; exact Or.inl hv),
      addNode_id hu]
  rcases hg : getEdge g u v with _ | e
  · simp only [addOrUpdateEdge, hg]
    exact haddE
  · simp only [addOrUpdateEdge, hg]
    split
    · exact haddE
    · rfl

theorem cartesian_nodes_eq {p : SASProblem} {m : Int} {g : Graph}
    (hwf : WellFormedProblem p) (hok : buildCartesianGraph p m = .ok g) :
    g.nodes = cartProd (p.«variables».map varRange) := by
  simp only [buildCartesianGraph] at hok
  split at hok
  · exact absurd hok (by simp)
  · rw [Except.ok.injEq] at hok
    subst hok
    have hnodup : (cartProd (p.«variables».map varRange)).Nodup :=
      cartProd_nodup (fun r hr => by
        obtain ⟨v, _, rfl⟩ := List.mem_map.mp hr
        exact varRange_nodup v)
    have hbase : ((cartProd (p.«variables».map varRange)).foldl addNode
        Graph.empty).nodes = cartProd (p.«variables».map varRange) := by
      rw [foldl_addNode_nodes _ Graph.empty hnodup
        (fun x _ h => List.not_mem_nil x h)]
      rfl
    refine foldl_preserves _
      (fun g' : Graph => g'.nodes = cartProd (p.«variables».map varRange)) _ _
      (fun g' st hst hg' => ?_) hbase
    refine foldl_preserves _
      (fun g' : Graph => g'.nodes = cartProd (p.«variables».map varRange)) _ _
      (fun g'' op hop hg'' => ?_) hg'
    split
    · rw [addOrUpdateEdge_nodes_id (by rw [hg'']; exact hst)
        (by rw [hg'']; exact apply_mem_cartProd hwf hop hst)]
      exact hg''
    · exact hg''

/-- Claim C7 as amended (the well-formedness hypothesis added): for a
well-formed problem within the cap, the Cartesian graph node list is
exactly the Cartesian product of the variable ranges — membership is
exactly one in-domain value per variable — its node count is the exact
product of the domain sizes, and it contains every node of the
reachability graph. -/
theorem c7_cartesian_completeness (p : SASProblem) (m : Int) (g : Graph)
    (hwf : WellFormedProblem p) (hok : buildCartesianGraph p m = .ok g) :
    g.nodes = cartProd (p.«variables».map varRange) ∧
    (∀ s : List Int, s ∈ g.nodes ↔
      List.Forall₂ (fun val r => val ∈ r) s (p.«variables».map varRange)) ∧
    g.nodes.length = domainProduct p ∧
    ∀ (fuel : Nat) (s : List Int),
      s ∈ (buildReachableGraph p fuel).nodes → s ∈ g.nodes := by
  have hnodes := cartesian_nodes_eq hwf hok
  refine ⟨hnodes, ?_, ?_, ?_⟩
  · intro s
    rw [hnodes]
    exact cartProd_mem_iff
  · rw [hnodes, cartesian_states_length]
  · intro fuel s hs
    rw [hnodes]
    exact reachAbs_mem_cartProd hwf (buildReachable_reachAbs p fuel s hs)

/-- The problem of the C7 counterexample: one binary variable but the
parsed initial state is `(5,)` — the parser performs no range check. -/
def cex7prob : SASProblem :=
  ⟨3, true, [⟨"var0", 0, 2, ["Atom a", "Atom b"]⟩], [5], [], []⟩

/-- Counterexample to C7 as stated: a parseable problem within the cap
whose out-of-domain initial state is a reachability-graph node but not a
Cartesian-graph node (so the containment clause fails without
well-formedness). -/
theorem c7_counterexample :
    parse "begin_variable\nvar0\n-1\n2\nAtom a\nAtom b\nend_variable\nbegin_state\n5\nend_state"
      = .ok cex7prob ∧
    buildCartesianGraph cex7prob 100000 = .ok ⟨[[0], [1]], []⟩ ∧
    [5] ∈ (buildReachableGraph cex7prob 1).nodes ∧
    [5] ∉ ([[0], [1]] : List (List Int)) := by
  refine ⟨by decide, by decide, by decide, by decide⟩

/-- Witness for C7 (amended) on the well-formed switch problem. -/
theorem c7_witness :
    WellFormedProblem switchProblem ∧
    buildCartesianGraph switchProblem 100000 =
      .ok ⟨[[0], [1]], [⟨[0], [1], 1, "turn_on"⟩]⟩ ∧
    ([[0], [1]] : List (List Int)).length = domainProduct switchProblem ∧
    [1] ∈ ([[0], [1]] : List (List Int)) := by
  have h := c7_cartesian_completeness switchProblem 100000
    ⟨[[0], [1]], [⟨[0], [1], 1, "turn_on"⟩]⟩ (by decide) (by decide)
  exact ⟨by decide, by decide, h.2.2.1,
    h.2.2.2 3 [1] (by decide)⟩

/-! ## Claim C1 — the weak component versus the reachability graph

Preparation: the `g.nodes.length` closure passes inside
`weakComponentNodes` saturate (each pass is a filter of `g.nodes` that
can only grow, and a pass that does not grow is already a fixed point),
so the computed component is closed under undirected adjacency and
contains its seed. -/

theorem contains_iff {l : List (List Int)} {a : List Int} :
    l.contains a = true ↔ a ∈ l :=
  List.elem_iff

theorem mem_expandComp {g : Graph} {acc : List (List Int)} {n : List Int} :
    n ∈ expandComp g acc ↔
      n ∈ g.nodes ∧ (n ∈ acc ∨ ∃ m ∈ acc, adjB g m n = true) := by
  unfold expandComp
  rw [List.mem_filter, Bool.or_eq_true, contains_iff, List.any_eq_true]

theorem filter_sublist_filter {α : Type} (l : List α) {p q : α → Bool}
    (h : ∀ a ∈ l, p a = true → q a = true) :
    (l.filter p).Sublist (l.filter q) := by
  induction l with
  | nil => exact List.Sublist.refl _
  | cons a tl ih =>
    have ih' := ih (fun x hx => h x (List.mem_cons_of_mem _ hx))
    by_cases hp : p a = true
    · rw [List.filter_cons_of_pos hp,
        List.filter_cons_of_pos (h a (List.mem_cons_self _ _) hp)]
      exact ih'.cons₂ a
    · rw [List.filter_cons_of_neg (by simpa using hp)]
      by_cases hq : q a = true
      · rw [List.filter_cons_of_pos hq]
        exact ih'.cons a
      · rw [List.filter_cons_of_neg (by simpa using hq)]
        exact ih'

theorem expandComp_sublist {g : Graph} (p : List Int → Bool) :
    (g.nodes.filter p).Sublist (expandComp g (g.nodes.filter p)) := by
  refine filter_sublist_filter g.nodes (fun a ha hp => ?_)
  rw [Bool.or_eq_true, contains_iff]
  exact Or.inl (List.mem_filter.mpr ⟨ha, hp⟩)

theorem iterExpand_fix {g : Graph} {acc : List (List Int)}
    (h : expandComp g acc = acc) : ∀ k, iterExpand g k acc = acc := by
  intro k
  induction k with
  | zero => rfl
  | succ k ih =>
    show iterExpand g k (expandComp g acc) = acc
    rw [h]
    exact ih

theorem iterExpand_saturates (g : Graph) :
    ∀ (k : Nat) (p : List Int → Bool),
      g.nodes.length < (g.nodes.filter p).length + k →
      expandComp g (iterExpand g k (g.nodes.filter p)) =
        iterExpand g k (g.nodes.filter p) := by
  intro k
  induction k with
  | zero =>
    intro p h
    exact absurd (List.length_filter_le p g.nodes) (by omega)
  | succ k ih =>
    intro p h
    by_cases heq : expandComp g (g.nodes.filter p) = g.nodes.filter p
    · have hfix : iterExpand g (k + 1) (g.nodes.filter p) = g.nodes.filter p :=
        iterExpand_fix heq (k + 1)
      rw [hfix]
      exact heq
    · have hsub := expandComp_sublist (g := g) p
      have hlt : (g.nodes.filter p).length <
          (expandComp g (g.nodes.filter p)).length := by
        rcases Nat.lt_or_ge (g.nodes.filter p).length
          (expandComp g (g.nodes.filter p)).length with h' | h'
        · exact h'
        · exact absurd (hsub.eq_of_length
            (le_antisymm hsub.length_le h')).symm heq
      exact ih _ (by
        show g.nodes.length < (expandComp g (g.nodes.filter p)).length + k
        omega)

theorem weakComponent_saturated (g : Graph) (s : List Int)
    (hs : s ∈ g.nodes) :
    expandComp g (weakComponentNodes g s) = weakComponentNodes g s := by
  refine iterExpand_saturates g g.nodes.length (fun n => n == s) ?_
  have hpos : 0 < (g.nodes.filter (fun n => n == s)).length :=
    List.length_pos.mpr (fun hnil => by
      have hmem : s ∈ List.filter (fun n => n == s) g.nodes :=
        List.mem_filter.mpr ⟨hs, beq_self_eq_true s⟩
      rw [hnil] at hmem
      exact List.not_mem_nil s hmem)
  omega

theorem iterExpand_grows {g : Graph} (p : List Int → Bool) :
    ∀ (k : Nat) {x : List Int}, x ∈ g.nodes.filter p →
      x ∈ iterExpand g k (g.nodes.filter p) := by
  intro k
  induction k generalizing p with
  | zero => intro x hx; exact hx
  | succ k ih =>
    intro x hx
    show x ∈ iterExpand g k (expandComp g (g.nodes.filter p))
    have hx' : x ∈ expandComp g (g.nodes.filter p) :=
      (expandComp_sublist p).mem hx
    exact ih (fun n => (g.nodes.filter p).contains n ||
      (g.nodes.filter p).any (fun m => adjB g m n)) hx'

theorem mem_weakComponent_self (g : Graph) (s : List Int)
    (hs : s ∈ g.nodes) : s ∈ weakComponentNodes g s :=
  iterExpand_grows (fun n => n == s) g.nodes.length
    (show s ∈ List.filter (fun n => n == s) g.nodes from
      List.mem_filter.mpr ⟨hs, beq_self_eq_true s⟩)

theorem weakComponent_closed (g : Graph) (s : List Int) (hs : s ∈ g.nodes)
    {m n : List Int} (hm : m ∈ weakComponentNodes g s) (hn : n ∈ g.nodes)
    (hadj : adjB g m n = true) : n ∈ weakComponentNodes g s := by
  rw [← weakComponent_saturated g s hs]
  exact mem_expandComp.mpr ⟨hn, Or.inr ⟨m, hm, hadj⟩⟩

theorem adjB_of_hasEdge {g : Graph} {a b : List Int}
    (h : hasEdge g a b = true) : adjB g a b = true := by
  obtain ⟨e, he, hm⟩ := List.any_eq_true.mp h
  exact List.any_eq_true.mpr ⟨e, he, by
    rw [Bool.or_eq_true]
    exact Or.inl hm⟩

theorem innerFold_hasEdge (ops : List SASOperator) (st : List Int) :
    ∀ (g0 : Graph) {op : SASOperator}, op ∈ ops →
      op.is_applicable st = true →
      hasEdge (ops.foldl (fun g op =>
        if op.is_applicable st = true then
          addOrUpdateEdge g st (op.apply st) op else g) g0)
        st (op.apply st) = true := by
  induction ops with
  | nil => intro g0 op hop; exact absurd hop (List.not_mem_nil op)
  | cons o tl ih =>
    intro g0 op hop happ
    rw [List.foldl_cons]
    rcases List.mem_cons.mp hop with rfl | hmem
    · refine foldl_preserves _
        (fun g : Graph => hasEdge g st (op.apply st) = true) tl _
        (fun g o' _ h => by
          split
          · exact hasEdge_addOrUpdateEdge_mono _ _ _ h
          · exact h) ?_
      rw [if_pos happ]
      exact hasEdge_addOrUpdateEdge_self ..
    · exact ih _ hmem happ

theorem outerFold_hasEdge (ops : List SASOperator) :
    ∀ (states : List (List Int)) (g0 : Graph) {s : List Int}, s ∈ states →
      ∀ {op : SASOperator}, op ∈ ops → op.is_applicable s = true →
      hasEdge (states.foldl (fun g state => ops.foldl (fun g op =>
        if op.is_applicable state = true then
          addOrUpdateEdge g state (op.apply state) op else g) g) g0)
        s (op.apply s) = true := by
  intro states
  induction states with
  | nil => intro g0 s hs; exact absurd hs (List.not_mem_nil s)
  | cons st tl ih =>
    intro g0 s hs op hop happ
    rw [List.foldl_cons]
    rcases List.mem_cons.mp hs with h | hmem
    · refine foldl_preserves _
        (fun g : Graph => hasEdge g s (op.apply s) = true) tl _
        (fun g st' _ hlem => by
          refine foldl_preserves _
            (fun g : Graph => hasEdge g s (op.apply s) = true)
            ops g (fun g' o' _ h' => ?_) hlem
          dsimp only
          split
          · exact hasEdge_addOrUpdateEdge_mono _ _ _ h'
          · exact h') ?_
      rw [h] at happ ⊢
      exact innerFold_hasEdge ops st g0 hop happ
    · exact ih _ hmem hop happ

theorem cartesian_hasEdge {p : SASProblem} {m : Int} {g : Graph}
    (hok : buildCartesianGraph p m = .ok g) :
    ∀ s ∈ cartProd (p.«variables».map varRange), ∀ op ∈ p.operators,
      op.is_applicable s = true → hasEdge g s (op.apply s) = true := by
  simp only [buildCartesianGraph] at hok
  split at hok
  · exact absurd hok (by simp)
  · rw [Except.ok.injEq] at hok
    subst hok
    intro s hs op hop happ
    exact outerFold_hasEdge p.operators _ _ hs hop happ

/-- Claim C1 as amended (equality weakened to containment, and the
well-formedness hypothesis added): for a well-formed problem, the weakly
connected component of the initial state extracted from the Cartesian
graph contains every node of the reachability graph.  The converse
containment — hence the claimed equality of node sets — is false
(`c1_counterexample`). -/
theorem c1_component_contains_reachable (p : SASProblem) (m : Int)
    (g comp : Graph) (hwf : WellFormedProblem p)
    (hok : buildCartesianGraph p m = .ok g)
    (hcomp : get_main_component g p.initial_state = .ok comp) :
    ∀ (fuel : Nat) (s : List Int),
      s ∈ (buildReachableGraph p fuel).nodes → s ∈ comp.nodes := by
  unfold get_main_component at hcomp
  split at hcomp
  case isFalse => exact absurd hcomp (by simp)
  case isTrue hinit =>
    rw [Except.ok.injEq] at hcomp
    subst hcomp
    intro fuel s hs
    show s ∈ weakComponentNodes g p.initial_state
    have hnodes := cartesian_nodes_eq hwf hok
    have hra := buildReachable_reachAbs p fuel s hs
    clear hs
    induction hra with
    | init => exact mem_weakComponent_self g p.initial_state hinit
    | @step t op hra hop happ ih =>
      have htprod : t ∈ cartProd (p.«variables».map varRange) :=
        reachAbs_mem_cartProd hwf hra
      have hedge := cartesian_hasEdge hok t htprod op hop happ
      have happly : op.apply t ∈ g.nodes := by
        rw [hnodes]
        exact apply_mem_cartProd hwf hop htprod
      exact weakComponent_closed g p.initial_state hinit ih happly
        (adjB_of_hasEdge hedge)

/-- The problem of the C1 counterexample: a single `back` operator whose
only transition points from the unreachable state `(1,)` into the
initial state `(0,)`. -/
def cex1prob : SASProblem :=
  ⟨3, true, [⟨"var0", 0, 2, ["Atom off", "Atom on"]⟩],
   [0], [], [⟨"back", 1, [(0, 1)], [(0, 0, [])]⟩]⟩

/-- Counterexample to C1 as stated: for this parseable, well-formed
problem the completed reachability graph has node set `{(0,)}` (no
operator applies to the initial state), while the weak component of the
initial state in the Cartesian graph also contains `(1,)` via the
backward edge `(1,) → (0,)` — the two node sets differ. -/
theorem c1_counterexample :
    parse "begin_version\n3\nend_version\nbegin_metric\n1\nend_metric\nbegin_variable\nvar0\n-1\n2\nAtom off\nAtom on\nend_variable\nbegin_state\n0\nend_state\nbegin_goal\n0\nend_goal\nbegin_operator\nback\n1\n0 1\n1\n0 0 -1 0\n1\nend_operator"
      = .ok cex1prob ∧
    WellFormedProblem cex1prob ∧
    (buildReachableGraph cex1prob 2).nodes = [[0]] ∧
    (buildReachableGraph cex1prob 10).nodes = [[0]] ∧
    buildCartesianGraph cex1prob 100000 =
      .ok ⟨[[0], [1]], [⟨[1], [0], 1, "back"⟩]⟩ ∧
    get_main_component (⟨[[0], [1]], [⟨[1], [0], 1, "back"⟩]⟩ : Graph)
      cex1prob.initial_state =
      .ok ⟨[[0], [1]], [⟨[1], [0], 1, "back"⟩]⟩ ∧
    [1] ∈ ([[0], [1]] : List (List Int)) ∧
    [1] ∉ ([[0]] : List (List Int)) := by
  refine ⟨by decide, by decide, by decide, by decide, by decide, by decide,
    by decide, by decide⟩

/-- Witness for C1 (amended) on the switch problem. -/
theorem c1_witness :
    WellFormedProblem switchProblem ∧
    buildCartesianGraph switchProblem 100000 =
      .ok ⟨[[0], [1]], [⟨[0], [1], 1, "turn_on"⟩]⟩ ∧
    get_main_component (⟨[[0], [1]], [⟨[0], [1], 1, "turn_on"⟩]⟩ : Graph)
      switchProblem.initial_state =
      .ok ⟨[[0], [1]], [⟨[0], [1], 1, "turn_on"⟩]⟩ ∧
    [1] ∈ (buildReachableGraph switchProblem 3).nodes ∧
    [1] ∈ (⟨[[0], [1]], [⟨[0], [1], 1, "turn_on"⟩]⟩ : Graph).nodes :=
  ⟨by decide, by decide, by decide, by decide,
   c1_component_contains_reachable switchProblem 100000
     ⟨[[0], [1]], [⟨[0], [1], 1, "turn_on"⟩]⟩
     ⟨[[0], [1]], [⟨[0], [1], 1, "turn_on"⟩]⟩
     (by decide) (by decide) (by decide) 3 [1] (by decide)⟩

/-! ## Claim C2 — the capacity guard of the Cartesian build

The total functions `is_applicable` / `apply` collapse Python's
`IndexError`: an out-of-range `var_id` reads as `none` (never equal to a
required value) instead of raising.  That is immaterial to the claims
that are conditional on a returned graph, but C2 asserts the build
*returns* within the cap — which the source does not guarantee: a
parseable operator whose precondition names a non-existent variable
makes `build_cartesian_graph` crash with an `IndexError` inside
`is_applicable` even when the product is within the cap.  The
definitions below re-embed the operator evaluation and the Cartesian
build with Python's exception propagation made explicit
(`Except.error` = the uncaught `IndexError`), mirroring the source's
evaluation order, including the short-circuit of the precondition and
guard loops.  `buildCartesianGraphE_eq` shows this faithful model agrees
with the total one whenever every referenced index is in range. -/

/-- Embeds the read `state[i]` with the `IndexError` kept: `.error`
exactly where `pyGet` is `none`. -/
def pyGetE (s : List Int) (i : Int) : Except String Int :=
  match pyGet s i with
  | some v => .ok v
  | none => .error "list index out of range"

/-- Embeds the write `new_state[i] = v` with the `IndexError` kept. -/
def pySetE (s : List Int) (i : Int) (v : Int) : Except String (List Int) :=
  if pyIndex s.length i < 0 ∨ (s.length : Int) ≤ pyIndex s.length i then
    .error "list assignment index out of range"
  else .ok (s.set (pyIndex s.length i).toNat v)

/-- Embeds the `(var_id, value)` check loops of `is_applicable` and of
an effect's guard, with Python's order: read `state[var_id]` (raising
`IndexError` when out of range), stop at the first mismatch. -/
def checkPairsE (state : List Int) : List (Int × Int) → Except String Bool
  | [] => .ok true
  | pc :: rest =>
    match pyGetE state pc.1 with
    | .error m => .error m
    | .ok v => if v ≠ pc.2 then .ok false else checkPairsE state rest

/-- `SASOperator.is_applicable` with the `IndexError` kept. -/
def SASOperator.is_applicableE (op : SASOperator) (state : List Int) :
    Except String Bool :=
  checkPairsE state op.preconditions

/-- The effect loop of `SASOperator.apply` with the `IndexError` kept:
guards read `state`, the write lands in the accumulator. -/
def applyEffectsE (state : List Int) :
    List (Int × Int × List (Int × Int)) → List Int → Except String (List Int)
  | [], new_state => .ok new_state
  | eff :: rest, new_state =>
    match checkPairsE state eff.2.2 with
    | .error m => .error m
    | .ok true =>
      match pySetE new_state eff.1 eff.2.1 with
      | .error m => .error m
      | .ok ns => applyEffectsE state rest ns
    | .ok false => applyEffectsE state rest new_state

/-- `SASOperator.apply` with the `IndexError` kept. -/
def SASOperator.applyE (op : SASOperator) (state : List Int) :
    Except String (List Int) :=
  applyEffectsE state op.effects state

/-- The per-state operator loop of `build_cartesian_graph` with
exceptions propagating. -/
def cartOpsLoopE (state : List Int) :
    List SASOperator → Graph → Except String Graph
  | [], g => .ok g
  | op :: rest, g =>
    match op.is_applicableE state with
    | .error m => .error m
    | .ok true =>
      match op.applyE state with
      | .error m => .error m
      | .ok next_state =>
        cartOpsLoopE state rest (addOrUpdateEdge g state next_state op)
    | .ok false => cartOpsLoopE state rest g

/-- The outer state loop of `build_cartesian_graph` with exceptions
propagating. -/
def cartStatesLoopE (ops : List SASOperator) :
    List (List Int) → Graph → Except String Graph
  | [], g => .ok g
  | st :: rest, g =>
    match cartOpsLoopE st ops g with
    | .error m => .error m
    | .ok g2 => cartStatesLoopE ops rest g2

/-- Embeds `StateSpaceBuilder.build_cartesian_graph` with Python's
exception behavior kept: the capacity check (raising the `MemoryError`)
comes first, before any node insertion and before any operator is ever
evaluated; afterwards an out-of-range index inside `is_applicable` /
`apply` surfaces as the uncaught `IndexError`. -/
def buildCartesianGraphE (p : SASProblem) (max_states : Int) :
    Except String Graph :=
  let all_states := cartProd (p.«variables».map varRange)
  if (all_states.length : Int) > max_states then
    .error (capacityMsg all_states.length max_states)
  else
    cartStatesLoopE p.operators all_states (all_states.foldl addNode Graph.empty)

/-- Is `i` a Python-valid index (negative wrap included) for a list of
length `n`? -/
def inRangeIdx (n : Nat) (i : Int) : Prop :=
  0 ≤ pyIndex n i ∧ pyIndex n i < (n : Int)

instance (n : Nat) (i : Int) : Decidable (inRangeIdx n i) := by
  unfold inRangeIdx
  infer_instance

/-- Every index an operator evaluation can touch (precondition reads,
guard reads, effect writes) is valid for states of length `n`. -/
def opIndicesInBounds (n : Nat) (op : SASOperator) : Prop :=
  (∀ pc ∈ op.preconditions, inRangeIdx n pc.1) ∧
  ∀ e ∈ op.effects, inRangeIdx n e.1 ∧ ∀ c ∈ e.2.2, inRangeIdx n c.1

instance (n : Nat) (op : SASOperator) : Decidable (opIndicesInBounds n op) := by
  unfold opIndicesInBounds
  infer_instance

/-- All operators of the problem only reference existing variables. -/
def ProblemIndicesInBounds (p : SASProblem) : Prop :=
  ∀ op ∈ p.operators, opIndicesInBounds p.«variables».length op

instance (p : SASProblem) : Decidable (ProblemIndicesInBounds p) := by
  unfold ProblemIndicesInBounds
  infer_instance

theorem pyGet_of_inRange {s : List Int} {i : Int}
    (h : inRangeIdx s.length i) : ∃ v, pyGet s i = some v := by
  unfold pyGet
  rw [if_neg (not_lt.mpr h.1)]
  have hlt : (pyIndex s.length i).toNat < s.length := by
    obtain ⟨h1, h2⟩ := h
    omega
  exact ⟨_, List.get?_eq_get hlt⟩

theorem pySetE_of_inRange {s : List Int} {i : Int}
    (h : inRangeIdx s.length i) (v : Int) :
    pySetE s i v = .ok (pySet s i v) := by
  obtain ⟨h1, h2⟩ := h
  unfold pySetE pySet
  rw [if_neg (not_or.mpr ⟨not_lt.mpr h1, not_le.mpr h2⟩),
    if_neg (not_lt.mpr h1)]

theorem checkPairsE_eq {state : List Int} :
    ∀ {l : List (Int × Int)}, (∀ pc ∈ l, inRangeIdx state.length pc.1) →
      checkPairsE state l =
        .ok (l.all (fun pc => pyGet state pc.1 == some pc.2)) := by
  intro l
  induction l with
  | nil => intro _; rfl
  | cons pc rest ih =>
    intro h
    obtain ⟨v, hv⟩ := pyGet_of_inRange (h pc (List.mem_cons_self _ _))
    simp only [checkPairsE, pyGetE, hv, List.all_cons]
    by_cases hveq : v = pc.2
    · subst hveq
      rw [if_neg (fun hc => hc rfl),
        ih (fun x hx => h x (List.mem_cons_of_mem _ hx))]
      simp
    · rw [if_pos hveq]
      have hbeq : (some v == some pc.2) = false :=
        beq_eq_false_iff_ne.mpr (by simpa using hveq)
      rw [hbeq, Bool.false_and]

theorem applyEffectsE_eq {state : List Int} :
    ∀ {l : List (Int × Int × List (Int × Int))} {ns : List Int},
      ns.length = state.length →
      (∀ e ∈ l, inRangeIdx state.length e.1 ∧
        ∀ c ∈ e.2.2, inRangeIdx state.length c.1) →
      applyEffectsE state l ns = .ok (l.foldl (applyEffect state) ns) := by
  intro l
  induction l with
  | nil => intro ns _ _; rfl
  | cons e rest ih =>
    intro ns hns h
    obtain ⟨he1, he2⟩ := h e (List.mem_cons_self _ _)
    have hguard := checkPairsE_eq he2
    have hrest := fun x hx => h x (List.mem_cons_of_mem _ hx)
    rw [List.foldl_cons, applyEffect_as_filter_step]
    by_cases hf : effectFires state e = true
    · have hguard1 : checkPairsE state e.2.2 = .ok true := by
        rw [hguard]
        exact congrArg _ hf
      have hset : pySetE ns e.1 e.2.1 = .ok (pySet ns e.1 e.2.1) :=
        pySetE_of_inRange (hns ▸ he1) e.2.1
      simp only [applyEffectsE, hguard1, hset]
      rw [if_pos hf]
      exact ih (by rw [pySet_length, hns]) hrest
    · have hguard0 : checkPairsE state e.2.2 = .ok false := by
        rw [hguard]
        have : effectFires state e = false := by
          revert hf
          cases effectFires state e <;> simp
        exact congrArg _ this
      simp only [applyEffectsE, hguard0]
      rw [if_neg hf]
      exact ih hns hrest

theorem cartOpsLoopE_eq (state : List Int) :
    ∀ {ops : List SASOperator} (g : Graph),
      (∀ op ∈ ops, opIndicesInBounds state.length op) →
      cartOpsLoopE state ops g = .ok (ops.foldl (fun g op =>
        if op.is_applicable state = true then
          addOrUpdateEdge g state (op.apply state) op else g) g) := by
  intro ops
  induction ops with
  | nil => intro g _; rfl
  | cons op rest ih =>
    intro g h
    obtain ⟨hpre, heff⟩ := h op (List.mem_cons_self _ _)
    have happE : op.is_applicableE state = .ok (op.is_applicable state) :=
      checkPairsE_eq hpre
    have hrest := fun x hx => h x (List.mem_cons_of_mem _ hx)
    rw [List.foldl_cons]
    by_cases ha : op.is_applicable state = true
    · have happE1 : op.is_applicableE state = .ok true := by rw [happE, ha]
      have happlyE : op.applyE state = .ok (op.apply state) :=
        applyEffectsE_eq rfl heff
      simp only [cartOpsLoopE, happE1, happlyE]
      rw [if_pos ha]
      exact ih _ hrest
    · have hfalse : op.is_applicable state = false := by
        revert ha
        cases op.is_applicable state <;> simp
      have happE0 : op.is_applicableE state = .ok false := by rw [happE, hfalse]
      simp only [cartOpsLoopE, happE0]
      rw [if_neg ha]
      exact ih _ hrest

theorem cartStatesLoopE_eq {ops : List SASOperator} {n : Nat}
    (hops : ∀ op ∈ ops, opIndicesInBounds n op) :
    ∀ (states : List (List Int)) (g : Graph), (∀ st ∈ states, st.length = n) →
      cartStatesLoopE ops states g = .ok (states.foldl (fun g st =>
        ops.foldl (fun g op => if op.is_applicable st = true then
          addOrUpdateEdge g st (op.apply st) op else g) g) g) := by
  intro states
  induction states with
  | nil => intro g _; rfl
  | cons st rest ih =>
    intro g hlen
    have hst : st.length = n := hlen st (List.mem_cons_self _ _)
    have hinner := cartOpsLoopE_eq st g (by rw [hst]; exact hops)
    simp only [cartStatesLoopE, hinner]
    rw [List.foldl_cons]
    exact ih _ (fun x hx => hlen x (List.mem_cons_of_mem _ hx))

/-- On a problem whose operators only reference existing variables, the
exception-faithful build agrees with the total one everywhere. -/
theorem buildCartesianGraphE_eq (p : SASProblem) (m : Int)
    (hin : ProblemIndicesInBounds p) :
    buildCartesianGraphE p m = buildCartesianGraph p m := by
  simp only [buildCartesianGraphE, buildCartesianGraph]
  by_cases hc : ((cartProd (p.«variables».map varRange)).length : Int) > m
  · rw [if_pos hc, if_pos hc]
  · rw [if_neg hc, if_neg hc]
    refine cartStatesLoopE_eq hin _ _ (fun st hst => ?_)
    rw [length_of_mem_cartProd hst, List.length_map]

theorem pyGetE_error {s : List Int} {i : Int} {e : String}
    (h : pyGetE s i = .error e) : e = "list index out of range" := by
  unfold pyGetE at h
  cases hp : pyGet s i with
  | none =>
    rw [hp] at h
    rw [Except.error.injEq] at h
    exact h.symm
  | some v =>
    rw [hp] at h
    exact absurd h (by simp)

theorem pySetE_error {s : List Int} {i v : Int} {e : String}
    (h : pySetE s i v = .error e) :
    e = "list assignment index out of range" := by
  unfold pySetE at h
  split at h
  · rw [Except.error.injEq] at h
    exact h.symm
  · exact absurd h (by simp)

theorem checkPairsE_error {state : List Int} :
    ∀ {l : List (Int × Int)} {e : String},
      checkPairsE state l = .error e → e = "list index out of range" := by
  intro l
  induction l with
  | nil => intro e h; simp [checkPairsE] at h
  | cons pc rest ih =>
    intro e h
    cases hg : pyGetE state pc.1 with
    | error m =>
      simp only [checkPairsE, hg] at h
      rw [Except.error.injEq] at h
      rw [← h]
      exact pyGetE_error hg
    | ok v =>
      simp only [checkPairsE, hg] at h
      split at h
      · exact absurd h (by simp)
      · exact ih h

theorem applyEffectsE_error {state : List Int} :
    ∀ {l : List (Int × Int × List (Int × Int))} {ns : List Int} {e : String},
      applyEffectsE state l ns = .error e →
      e = "list index out of range" ∨
        e = "list assignment index out of range" := by
  intro l
  induction l with
  | nil => intro ns e h; simp [applyEffectsE] at h
  | cons eff rest ih =>
    intro ns e h
    cases hg : checkPairsE state eff.2.2 with
    | error m =>
      simp only [applyEffectsE, hg] at h
      rw [Except.error.injEq] at h
      rw [← h]
      exact Or.inl (checkPairsE_error hg)
    | ok b =>
      cases b with
      | true =>
        simp only [applyEffectsE, hg] at h
        cases hset : pySetE ns eff.1 eff.2.1 with
        | error m =>
          simp only [hset] at h
          rw [Except.error.injEq] at h
          rw [← h]
          exact Or.inr (pySetE_error hset)
        | ok ns2 =>
          simp only [hset] at h
          exact ih h
      | false =>
        simp only [applyEffectsE, hg] at h
        exact ih h

theorem cartOpsLoopE_error {state : List Int} :
    ∀ {ops : List SASOperator} {g : Graph} {e : String},
      cartOpsLoopE state ops g = .error e →
      e = "list index out of range" ∨
        e = "list assignment index out of range" := by
  intro ops
  induction ops with
  | nil => intro g e h; simp [cartOpsLoopE] at h
  | cons op rest ih =>
    intro g e h
    cases happ : op.is_applicableE state with
    | error m =>
      simp only [cartOpsLoopE, happ] at h
      rw [Except.error.injEq] at h
      rw [← h]
      exact Or.inl (checkPairsE_error happ)
    | ok b =>
      cases b with
      | true =>
        simp only [cartOpsLoopE, happ] at h
        cases happly : op.applyE state with
        | error m =>
          simp only [happly] at h
          rw [Except.error.injEq] at h
          rw [← h]
          exact applyEffectsE_error happly
        | ok ns =>
          simp only [happly] at h
          exact ih h
      | false =>
        simp only [cartOpsLoopE, happ] at h
        exact ih h

theorem cartStatesLoopE_error {ops : List SASOperator} :
    ∀ {states : List (List Int)} {g : Graph} {e : String},
      cartStatesLoopE ops states g = .error e →
      e = "list index out of range" ∨
        e = "list assignment index out of range" := by
  intro states
  induction states with
  | nil => intro g e h; simp [cartStatesLoopE] at h
  | cons st rest ih =>
    intro g e h
    cases hi : cartOpsLoopE st ops g with
    | error m =>
      simp only [cartStatesLoopE, hi] at h
      rw [Except.error.injEq] at h
      rw [← h]
      exact cartOpsLoopE_error hi
    | ok g2 =>
      simp only [cartStatesLoopE, hi] at h
      exact ih h

/-- Claim C2 as amended.  Whenever the domain-size product exceeds
`max_states`, the build fails with the capacity `MemoryError` naming the
attempted size and the configured limit — the check precedes all node
insertion and all operator evaluation (both models agree on that
branch).  Within the cap the only possible failure is the `IndexError`
of an out-of-range list access inside operator evaluation — the capacity
error is never raised there — and the build returns a graph provided
every operator's precondition, guard and effect `var_id`s are valid for
the problem's variable count (the parser does not validate this;
`c2_counterexample` shows a parseable problem crashing within the
cap). -/
theorem c2_capacity_guard (p : SASProblem) (m : Int) :
    ((domainProduct p : Int) > m →
      buildCartesianGraphE p m = .error (capacityMsg (domainProduct p) m) ∧
      buildCartesianGraph p m = .error (capacityMsg (domainProduct p) m)) ∧
    ((domainProduct p : Int) ≤ m → ∀ e : String,
      buildCartesianGraphE p m = .error e →
      e = "list index out of range" ∨
        e = "list assignment index out of range") ∧
    ((domainProduct p : Int) ≤ m → ProblemIndicesInBounds p →
      ∃ g : Graph, buildCartesianGraphE p m = .ok g ∧
        buildCartesianGraph p m = .ok g) := by
  have hlen : ((cartProd (p.«variables».map varRange)).length : Int) =
      (domainProduct p : Int) := by
    rw [cartesian_states_length]
  refine ⟨?_, ?_, ?_⟩
  · intro h
    constructor
    · simp only [buildCartesianGraphE]
      rw [hlen, if_pos h, cartesian_states_length]
    · simp only [buildCartesianGraph]
      rw [hlen, if_pos h, cartesian_states_length]
  · intro h e he
    simp only [buildCartesianGraphE] at he
    rw [hlen, if_neg (not_lt.mpr h)] at he
    exact cartStatesLoopE_error he
  · intro hcap hin
    have hbr := buildCartesianGraphE_eq p m hin
    have htot : ∃ g : Graph, buildCartesianGraph p m = .ok g := by
      simp only [buildCartesianGraph]
      rw [hlen, if_neg (not_lt.mpr hcap)]
      exact ⟨_, rfl⟩
    obtain ⟨g, hg⟩ := htot
    exact ⟨g, hbr.trans hg, hg⟩

/-- The problem of the C2 counterexample: one binary variable, one
operator whose precondition references the non-existent variable 99 —
the parser accepts it without validation. -/
def cex2prob : SASProblem :=
  ⟨3, true, [⟨"var0", 0, 2, ["Atom a", "Atom b"]⟩], [0], [],
   [⟨"op", 1, [(99, 0)], []⟩]⟩

/-- Counterexample to C2 as stated: a parseable problem whose domain
product (2) is well within the cap, yet the build does not return a
graph — evaluating `state[99]` on a 1-tuple inside `is_applicable`
raises the `IndexError`. -/
theorem c2_counterexample :
    parse "begin_variable\nvar0\n-1\n2\nAtom a\nAtom b\nend_variable\nbegin_state\n0\nend_state\nbegin_operator\nop\n1\n99 0\n0\n1\nend_operator"
      = .ok cex2prob ∧
    (domainProduct cex2prob : Int) ≤ 100000 ∧
    buildCartesianGraphE cex2prob 100000 = .error "list index out of range" := by
  refine ⟨by decide, by decide, by decide⟩

/-- Witness for C2 (amended): the switch problem over the cap fails with
the message naming 2 and 1 in both models; within the cap, with all
indices in bounds, both models return the same graph. -/
theorem c2_witness :
    (buildCartesianGraphE switchProblem 1 = .error (capacityMsg 2 1) ∧
      buildCartesianGraph switchProblem 1 = .error (capacityMsg 2 1)) ∧
    ∃ g : Graph, buildCartesianGraphE switchProblem 100000 = .ok g ∧
      buildCartesianGraph switchProblem 100000 = .ok g :=
  ⟨(c2_capacity_guard switchProblem 1).1 (by decide),
   (c2_capacity_guard switchProblem 100000).2.2 (by decide) (by decide)⟩

end SAS
